import Mathlib

/-!
A shallow embedding of the core of the citar trigram-HMM part-of-speech
tagger (github.com/danieldk/citar), written to check the repository's
natural-language specification against the code.

Modelling conventions:
* Go `float64` quantities are modelled as exact rationals (`ℚ`).  Where a
  genuine float division by zero can occur (the leave-one-out estimates of
  `calculateLambdas`), the result is modelled by `GFloat`, which keeps track
  of NaN and the signed infinities, because the branch taken by the Go code
  depends on NaN comparison semantics.  Probabilities inside the Viterbi
  trellis, which Go initialises to `math.Inf(-1)`, are modelled as
  `Option ℚ` with `none` standing for -infinity.
* Go maps are modelled as association lists (`List (key × value)`), looked
  up with `alookup`; map iteration is modelled as iteration over the list.
* Go strings/rune slices are modelled as `List Char`.
* A Go `panic` is modelled by returning `none` from an `Option`-valued
  function.
-/

set_option maxHeartbeats 1000000

namespace Citar

/-- Part-of-speech tag: `src/model/ngrams.go`, type `Tag`.  A `uint` code
assigned by the tag bijection plus a capitalization flag. -/
structure Tag where
  tag : Nat
  capital : Bool
deriving DecidableEq, Repr

instance : Inhabited Tag := ⟨⟨0, false⟩⟩

/-- Tag unigram key: `src/model/ngrams.go`, type `Unigram`. -/
structure Unigram where
  t1 : Tag
deriving DecidableEq, Repr

/-- Tag bigram key: `src/model/ngrams.go`, type `Bigram`. -/
structure Bigram where
  t1 : Tag
  t2 : Tag
deriving DecidableEq, Repr

/-- Tag trigram key: `src/model/ngrams.go`, type `Trigram`. -/
structure Trigram where
  t1 : Tag
  t2 : Tag
  t3 : Tag
deriving DecidableEq, Repr

/-- Association-list lookup; the model of a Go map read `m[k]` returning
`(value, ok)`. -/
def alookup {α β : Type} [DecidableEq α] (k : α) : List (α × β) → Option β
  | [] => none
  | (k', v) :: rest => if k' = k then some v else alookup k rest

/-- The keys of an association list. -/
def akeys {α β : Type} (l : List (α × β)) : List α := l.map Prod.fst

/-- Start-of-sentence marker `model.StartToken` (`"<START>"`). -/
def startTokenChars : List Char := String.toList "<START>"

/-- End-of-sentence marker `model.EndToken` (`"<END>"`). -/
def endTokenChars : List Char := String.toList "<END>"

/-- Result of a `float64` division in the leave-one-out estimates of
`calculateLambdas`: a finite value (as an exact rational), a signed
infinity, or NaN. -/
inductive GFloat where
  | val (q : ℚ)
  | posInf
  | negInf
  | nan
deriving DecidableEq, Repr

/-- Go `float64` division `a / b` for finite `a`, `b`: NaN on `0/0`,
signed infinity on division of a nonzero value by zero. -/
def fdiv (a b : ℚ) : GFloat :=
  if b = 0 then
    if a = 0 then .nan else if 0 < a then .posInf else .negInf
  else .val (a / b)

/-- Go `float64` strict `>`.  Any comparison involving NaN is false. -/
def GFloat.Gt : GFloat → GFloat → Prop
  | .nan, _ => False
  | _, .nan => False
  | .posInf, .posInf => False
  | .posInf, _ => True
  | _, .posInf => False
  | .negInf, _ => False
  | .val _, .negInf => True
  | .val a, .val b => b < a

instance : ∀ a b : GFloat, Decidable (a.Gt b)
  | .nan, .val _ => .isFalse (fun h => h)
  | .nan, .posInf => .isFalse (fun h => h)
  | .nan, .negInf => .isFalse (fun h => h)
  | .nan, .nan => .isFalse (fun h => h)
  | .val _, .nan => .isFalse (fun h => h)
  | .posInf, .nan => .isFalse (fun h => h)
  | .negInf, .nan => .isFalse (fun h => h)
  | .posInf, .posInf => .isFalse (fun h => h)
  | .posInf, .val _ => .isTrue trivial
  | .posInf, .negInf => .isTrue trivial
  | .val _, .posInf => .isFalse (fun h => h)
  | .negInf, .posInf => .isFalse (fun h => h)
  | .negInf, .val _ => .isFalse (fun h => h)
  | .negInf, .negInf => .isFalse (fun h => h)
  | .val _, .negInf => .isTrue trivial
  | .val a, .val b => inferInstanceAs (Decidable (b < a))

/-- `src/trigrams/linear_interpolation.go`, `corpusSize`: the sum of all
unigram counts. -/
def corpusSize (unigramFreqs : List (Unigram × Int)) : Int :=
  unigramFreqs.foldl (fun size p => size + p.2) 0

/-- The trigram leave-one-out estimate `l3p` of the `calculateLambdas`
loop (`linear_interpolation.go` lines 76-79): `(f(t1,t2,t3)-1)/(f(t1,t2)-1)`
when the bigram `(t1,t2)` has an entry, and the float zero value
otherwise. -/
def l3Est (bigramFreqs : List (Bigram × Int)) (t1t2t3 : Trigram)
    (t1t2t3Freq : Int) : GFloat :=
  match alookup (⟨t1t2t3.t1, t1t2t3.t2⟩ : Bigram) bigramFreqs with
  | some t1t2Freq => fdiv ((t1t2t3Freq : ℚ) - 1) ((t1t2Freq : ℚ) - 1)
  | none => .val 0

/-- The bigram leave-one-out estimate `l2p` (`linear_interpolation.go`
lines 84-89): `(f(t2,t3)-1)/(f(t2)-1)` when both table entries exist. -/
def l2Est (unigramFreqs : List (Unigram × Int)) (bigramFreqs : List (Bigram × Int))
    (t1t2t3 : Trigram) : GFloat :=
  match alookup (⟨t1t2t3.t2, t1t2t3.t3⟩ : Bigram) bigramFreqs with
  | some t2t3Freq =>
    match alookup (⟨t1t2t3.t2⟩ : Unigram) unigramFreqs with
    | some t2Freq => fdiv ((t2t3Freq : ℚ) - 1) ((t2Freq : ℚ) - 1)
    | none => .val 0
  | none => .val 0

/-- The unigram leave-one-out estimate `l1p` (`linear_interpolation.go`
lines 91-95): `(f(t3)-1)/(corpusSize-1)` when the unigram entry exists. -/
def l1Est (cs : Int) (unigramFreqs : List (Unigram × Int)) (t1t2t3 : Trigram) : GFloat :=
  match alookup (⟨t1t2t3.t3⟩ : Unigram) unigramFreqs with
  | some t3Freq => fdiv ((t3Freq : ℚ) - 1) ((cs : ℚ) - 1)
  | none => .val 0

/-- The accumulator chosen for one trigram by the branch at
`linear_interpolation.go` lines 97-103: `0` means the count is added to
`l1f` (the λ1 accumulator), `1` to `l2f` (λ2), `2` to `l3f` (λ3). -/
def lambdaBranch (cs : Int) (unigramFreqs : List (Unigram × Int))
    (bigramFreqs : List (Bigram × Int)) (t1t2t3 : Trigram) (t1t2t3Freq : Int) : Nat :=
  let l3p := l3Est bigramFreqs t1t2t3 t1t2t3Freq
  let l2p := l2Est unigramFreqs bigramFreqs t1t2t3
  let l1p := l1Est cs unigramFreqs t1t2t3
  if l1p.Gt l2p ∧ l1p.Gt l3p then 0
  else if l2p.Gt l1p ∧ l2p.Gt l3p then 1
  else 2

/-- `src/trigrams/linear_interpolation.go`, type `smoothingParameters`. -/
structure smoothingParameters where
  L1 : ℚ
  L2 : ℚ
  L3 : ℚ
deriving DecidableEq, Repr

/-- The three raw accumulators `(l1f, l2f, l3f)` of `calculateLambdas`
after its loop over the trigram table. -/
def lambdaAccums (cs : Int) (unigramFreqs : List (Unigram × Int))
    (bigramFreqs : List (Bigram × Int)) (trigramFreqs : List (Trigram × Int)) :
    Int × Int × Int :=
  trigramFreqs.foldl
    (fun acc p =>
      let b := lambdaBranch cs unigramFreqs bigramFreqs p.1 p.2
      if b = 0 then (acc.1 + p.2, acc.2.1, acc.2.2)
      else if b = 1 then (acc.1, acc.2.1 + p.2, acc.2.2)
      else (acc.1, acc.2.1, acc.2.2 + p.2))
    (0, 0, 0)

/-- `src/trigrams/linear_interpolation.go`, `calculateLambdas`: the
deleted-interpolation smoothing weights, each accumulator normalized by
the total. -/
def calculateLambdas (cs : Int) (unigramFreqs : List (Unigram × Int))
    (bigramFreqs : List (Bigram × Int)) (trigramFreqs : List (Trigram × Int)) :
    smoothingParameters :=
  let acc := lambdaAccums cs unigramFreqs bigramFreqs trigramFreqs
  let totalTrigrams := acc.1 + acc.2.1 + acc.2.2
  { L1 := (acc.1 : ℚ) / (totalTrigrams : ℚ)
    L2 := (acc.2.1 : ℚ) / (totalTrigrams : ℚ)
    L3 := (acc.2.2 : ℚ) / (totalTrigrams : ℚ) }

/-- `src/trigrams/linear_interpolation.go`, type `LinearInterpolationModel`:
the three precomputed log-probability tables. -/
structure LinearInterpolationModel where
  unigramProbs : List (Unigram × ℚ)
  bigramProbs : List (Bigram × ℚ)
  trigramProbs : List (Trigram × ℚ)

/-- `LinearInterpolationModel.TrigramProb` (`linear_interpolation.go` lines
43-57): trigram entry, else bigram `(t2,t3)` entry, else unigram `(t3)`
entry, else panic (modelled as `none`). -/
def LinearInterpolationModel.TrigramProb (m : LinearInterpolationModel)
    (trigram : Trigram) : Option ℚ :=
  match alookup trigram m.trigramProbs with
  | some p => some p
  | none =>
    match alookup (⟨trigram.t2, trigram.t3⟩ : Bigram) m.bigramProbs with
    | some p => some p
    | none =>
      match alookup (⟨trigram.t3⟩ : Unigram) m.unigramProbs with
      | some p => some p
      | none => none

/-! ## Words: suffix trees (`src/words/suffix_tree.go`) -/

/-- `src/words/suffix_tree.go`, type `treeNode`: children keyed by the next
rune of the reversed suffix, per-tag frequencies, and the total frequency. -/
inductive TreeNode where
  | mk (children : List (Char × TreeNode)) (tagFreqs : List (Tag × Int)) (tagFreq : Int)

/-- The `children` field of a `treeNode`. -/
def TreeNode.children : TreeNode → List (Char × TreeNode)
  | .mk c _ _ => c

/-- The `tagFreqs` field of a `treeNode`. -/
def TreeNode.tagFreqs : TreeNode → List (Tag × Int)
  | .mk _ t _ => t

/-- The `tagFreq` field of a `treeNode`. -/
def TreeNode.tagFreq : TreeNode → Int
  | .mk _ _ f => f

/-- `bayesianInversion` (`suffix_tree.go` lines 141-145): divide each tag's
probability by that tag's entry in the unigram-frequency table.  A missing
entry reads as the zero value, as in Go (the resulting division by zero
cannot occur in the reachable uses, where every queried tag has a unigram
entry). -/
def bayesianInversion (uf : List (Unigram × Int)) (tp : List (Tag × ℚ)) :
    List (Tag × ℚ) :=
  tp.map (fun p => (p.1, p.2 / (((alookup (⟨p.1⟩ : Unigram) uf).getD 0 : Int) : ℚ)))

/-- The per-node probability update shared verbatim by
`treeNode.suffixTagProbs` (`suffix_tree.go` lines 110-123) and
`convertTreeRecursive` (`doc.go` lines 292-305): each tag's probability
becomes `(ownRatio + θ·carried) / (θ + 1)` where `ownRatio` is the node's
frequency ratio for the tag, or 0 if absent. -/
def nodeUpdate (theta : ℚ) (n : TreeNode) (tp : List (Tag × ℚ)) : List (Tag × ℚ) :=
  tp.map (fun p =>
    let nodeProb : ℚ :=
      match alookup p.1 n.tagFreqs with
      | some f => (f : ℚ) / (n.tagFreq : ℚ)
      | none => 0
    (p.1, (nodeProb + theta * p.2) / (theta + 1)))

/-- `treeNode.suffixTagProbs` (`suffix_tree.go` lines 108-139): walk the
trie along the reversed suffix, updating the carried probabilities at every
visited node, stopping at the end of the suffix or at a missing child, and
finishing with `bayesianInversion`. -/
def TreeNode.suffixTagProbs (theta : ℚ) (uf : List (Unigram × Int)) :
    TreeNode → List Char → List (Tag × ℚ) → List (Tag × ℚ)
  | n, [], tp => bayesianInversion uf (nodeUpdate theta n tp)
  | n, c :: rest, tp =>
    let tp' := nodeUpdate theta n tp
    match alookup c n.children with
    | some child => child.suffixTagProbs theta uf rest tp'
    | none => bayesianInversion uf tp'

/-- Insert-or-add update of a tag-frequency mapping, the model of the Go
map update in `treeNode.addSuffix` (`suffix_tree.go` lines 82-90). -/
def bumpTag : List (Tag × Int) → Tag → Int → List (Tag × Int)
  | [], tag, freq => [(tag, freq)]
  | (t, f) :: rest, tag, freq =>
    if t = tag then (t, f + freq) :: rest else (t, f) :: bumpTag rest tag freq

/-- Replace the child for rune `c`, or append it if absent; the model of
the Go map update in `treeNode.addSuffix` (`suffix_tree.go` lines 99-103). -/
def setChild : List (Char × TreeNode) → Char → TreeNode → List (Char × TreeNode)
  | [], c, node => [(c, node)]
  | (c', n') :: rest, c, node =>
    if c' = c then (c', node) :: rest else (c', n') :: setChild rest c node

/-- `treeNode.addSuffix` (`suffix_tree.go` lines 80-106): add the word's
tag frequencies to every node along the reversed suffix, creating children
as needed. -/
def TreeNode.addSuffix : TreeNode → List Char → List (Tag × Int) → TreeNode
  | n, revSuffix, tf =>
    let tagFreqs' := tf.foldl (fun acc p => bumpTag acc p.1 p.2) n.tagFreqs
    let tagFreq' := n.tagFreq + tf.foldl (fun a p => a + p.2) 0
    match revSuffix with
    | [] => .mk n.children tagFreqs' tagFreq'
    | c :: rest =>
      let child := (alookup c n.children).getD (.mk [] [] 0)
      .mk (setChild n.children c (child.addSuffix rest tf)) tagFreqs' tagFreq'

/-- `src/words/suffix_tree.go`, type `wordSuffixTree`. -/
structure WordSuffixTree where
  unigramFreqs : List (Unigram × Int)
  root : TreeNode
  maxLength : Nat
  theta : ℚ

/-- `newWordSuffixTree` (`suffix_tree.go` lines 12-33): the root's
tag frequencies are the unigram frequencies with the skipped (marker) tag
numbers left out. -/
def newWordSuffixTree (unigramFreqs : List (Unigram × Int)) (skip : List Nat)
    (theta : ℚ) (maxLength : Nat) : WordSuffixTree :=
  let root := unigramFreqs.foldl
    (fun (r : TreeNode) p =>
      if p.1.t1.tag ∈ skip then r
      else .mk r.children (r.tagFreqs ++ [(p.1.t1, p.2)]) (r.tagFreq + p.2))
    (.mk [] [] 0)
  { unigramFreqs := unigramFreqs, root := root, maxLength := maxLength, theta := theta }

/-- `wordSuffixTree.addWord` (`suffix_tree.go` lines 35-43): reverse the
word, truncate to the maximum suffix length, and add it to the trie. -/
def WordSuffixTree.addWord (t : WordSuffixTree) (word : List Char)
    (tf : List (Tag × Int)) : WordSuffixTree :=
  { t with root := t.root.addSuffix (word.reverse.take t.maxLength) tf }

/-- `wordSuffixTree.suffixTagProbs` (`suffix_tree.go` lines 45-58): start
from a probability of 0 for every tag at the root and walk the reversed,
truncated word. -/
def WordSuffixTree.suffixTagProbs (t : WordSuffixTree) (word : List Char) :
    List (Tag × ℚ) :=
  let runes := word.reverse.take t.maxLength
  let tagProbs := t.root.tagFreqs.map (fun p => (p.1, (0 : ℚ)))
  t.root.suffixTagProbs t.theta t.unigramFreqs runes tagProbs

/-! ## Words: handlers (`src/words/doc.go`, `src/words/lexicon.go`)

The Go code applies `math.Log` when converting retained probabilities to
log-space; `math.Log` is modelled by an explicit function parameter
`log : ℚ → ℚ`, applied identically wherever the source applies `math.Log`.
The regular expression `cardinalPattern.MatchString` is likewise modelled
by a predicate parameter `cardinal : List Char → Bool`, and
`unicode.IsUpper` / `strings.ToLower` by `Char.isUpper` / `Char.toLower`. -/

/-- `src/words/doc.go`, type `tagProb`. -/
structure TagProb where
  tag : Tag
  prob : ℚ
deriving DecidableEq

/-- `calcTheta` (`doc.go` lines 186-210) up to the final square root: the
source returns `math.Sqrt` of this value; the radicand is modelled because
square roots are irrational.  `pAvg` is `1/len(uf)` over the whole table
(markers included), the frequency sum excludes the skipped markers, and the
denominator is `len(uf)-1`, again over the whole table. -/
def calcThetaSq (uf : List (Unigram × Int)) (skip : List Nat) : ℚ :=
  let pAvg : ℚ := 1 / (uf.length : ℚ)
  let freqSum : Int := uf.foldl (fun a p => if p.1.t1.tag ∈ skip then a else a + p.2) 0
  let stddevSum : ℚ := uf.foldl
    (fun a p =>
      if p.1.t1.tag ∈ skip then a
      else a + ((p.2 : ℚ) / (freqSum : ℚ) - pAvg) ^ 2)
    0
  stddevSum / ((uf.length : ℚ) - 1)

/-- `insertWithLimit` (`doc.go` lines 212-220): insert `value` at `index`,
growing by one element if below `limit` and otherwise discarding the last
element. -/
def insertWithLimit (slice : List TagProb) (limit index : Nat) (value : TagProb) :
    List TagProb :=
  let slice := if slice.length < limit then slice ++ [⟨⟨0, false⟩, 0⟩] else slice
  slice.take index ++ value :: (slice.drop index).dropLast

/-- The `sort.Search` call of `bestNLogSpace` (`doc.go` lines 320-322): the
first index whose stored probability is at most `prob` (`sort.Search`
returns exactly this index for the monotone predicates arising from the
descending `sorted` slice). -/
def searchIdx (sorted : List TagProb) (prob : ℚ) : Nat :=
  match sorted with
  | [] => 0
  | s :: rest => if s.prob ≤ prob then 0 else searchIdx rest prob + 1

/-- The insertion loop of `bestNLogSpace` (`doc.go` lines 317-327): keep the
`n` largest probabilities, in descending order. -/
def bestNSorted (tp : List (Tag × ℚ)) (n : Nat) : List TagProb :=
  tp.foldl
    (fun sorted p =>
      let ip := searchIdx sorted p.2
      if ip < n then insertWithLimit sorted n ip ⟨p.1, p.2⟩ else sorted)
    []

/-- `bestNLogSpace` (`doc.go` lines 316-336): retain the top-`n` tags and
convert the retained probabilities to log-space. -/
def bestNLogSpace (log : ℚ → ℚ) (tp : List (Tag × ℚ)) (n : Nat) : List (Tag × ℚ) :=
  (bestNSorted tp n).map (fun s => (s.tag, log s.prob))

/-- `src/words/doc.go`, type `SuffixHandler`: four word-shape suffix trees
and the maximum number of returned tags. -/
structure SuffixHandler where
  upperTree : WordSuffixTree
  lowerTree : WordSuffixTree
  dashTree : WordSuffixTree
  cardinalTree : WordSuffixTree
  maxTags : Nat

/-- `SuffixHandler.selectSuffixTree` (`doc.go` lines 143-158).  `none`
models the Go panic on `runes[0]` when the word is empty. -/
def SuffixHandler.selectSuffixTree (cardinal : List Char → Bool) (h : SuffixHandler)
    (word : List Char) : Option WordSuffixTree :=
  match word with
  | [] => none
  | c :: _ =>
    if c.isUpper then some h.upperTree
    else if cardinal word then some h.cardinalTree
    else if word.contains '-' then some h.dashTree
    else some h.lowerTree

/-- `SuffixHandler.TagProbs` (`doc.go` lines 137-141). -/
def SuffixHandler.TagProbs (log : ℚ → ℚ) (cardinal : List Char → Bool)
    (h : SuffixHandler) (word : List Char) : Option (List (Tag × ℚ)) :=
  (h.selectSuffixTree cardinal word).map
    (fun t => bestNLogSpace log (t.suffixTagProbs word) h.maxTags)

/-- `src/words/doc.go`, type `LookupSuffixHandler`: per-class flat
suffix-string → tag-probability maps. -/
structure LookupSuffixHandler where
  upperProbs : List (List Char × List (Tag × ℚ))
  lowerProbs : List (List Char × List (Tag × ℚ))
  dashProbs : List (List Char × List (Tag × ℚ))
  cardinalProbs : List (List Char × List (Tag × ℚ))
  maxLength : Nat

/-- `LookupSuffixHandler.selectMap` (`doc.go` lines 262-274); `none` models
the Go panic on `runes[0]` when the word is empty. -/
def LookupSuffixHandler.selectMap (cardinal : List Char → Bool)
    (h : LookupSuffixHandler) (word : List Char) :
    Option (List (List Char × List (Tag × ℚ))) :=
  match word with
  | [] => none
  | c :: _ =>
    if c.isUpper then some h.upperProbs
    else if cardinal word then some h.cardinalProbs
    else if word.contains '-' then some h.dashProbs
    else some h.lowerProbs

/-- The shortening loop of `LookupSuffixHandler.TagProbs` (`doc.go` lines
251-259): look up progressively shorter initial segments of the truncated
reversed word; on exhaustion read the empty key (a missing key reads as the
nil map, i.e. the empty mapping). -/
def lookupLoop (m : List (List Char × List (Tag × ℚ))) : List Char → List (Tag × ℚ)
  | [] => (alookup ([] : List Char) m).getD []
  | c :: rest =>
    match alookup (c :: rest) m with
    | some probs => probs
    | none => lookupLoop m (c :: rest).dropLast
termination_by runes => runes.length
decreasing_by simp

/-- `LookupSuffixHandler.TagProbs` (`doc.go` lines 242-260). -/
def LookupSuffixHandler.TagProbs (cardinal : List Char → Bool)
    (h : LookupSuffixHandler) (word : List Char) : Option (List (Tag × ℚ)) :=
  (h.selectMap cardinal word).map
    (fun m => lookupLoop m (word.reverse.take h.maxLength))

mutual

/-- `convertTreeRecursive` (`doc.go` lines 288-314): update the carried
probabilities at this node, store entries for all descendants, then store
this node's own entry (inversion, top-`maxTags`, log-space) under its
suffix string.  The Go map insert is modelled by consing the new binding. -/
def convertTreeRecursive (log : ℚ → ℚ) (maxTags : Nat) (theta : ℚ)
    (uf : List (Unigram × Int)) :
    TreeNode → List Char → List (Tag × ℚ) →
    List (List Char × List (Tag × ℚ)) → List (List Char × List (Tag × ℚ))
  | .mk children tagFreqs tagFreq, suffix, tagProbs, probs =>
    let tagProbs' := nodeUpdate theta (.mk children tagFreqs tagFreq) tagProbs
    let probs' := convertChildren log maxTags theta uf children suffix tagProbs' probs
    (suffix, bestNLogSpace log (bayesianInversion uf tagProbs') maxTags) :: probs'

/-- The children loop of `convertTreeRecursive` (`doc.go` lines 307-310);
each child receives its own copy of the carried probabilities. -/
def convertChildren (log : ℚ → ℚ) (maxTags : Nat) (theta : ℚ)
    (uf : List (Unigram × Int)) :
    List (Char × TreeNode) → List Char → List (Tag × ℚ) →
    List (List Char × List (Tag × ℚ)) → List (List Char × List (Tag × ℚ))
  | [], _, _, probs => probs
  | (r, cn) :: rest, suffix, tagProbs, probs =>
    let probs' := convertTreeRecursive log maxTags theta uf cn (suffix ++ [r]) tagProbs probs
    convertChildren log maxTags theta uf rest suffix tagProbs probs'

end

/-- `convertTree` (`doc.go` lines 276-286). -/
def convertTree (log : ℚ → ℚ) (t : WordSuffixTree) (maxTags : Nat) :
    List (List Char × List (Tag × ℚ)) :=
  let tagProbs := t.root.tagFreqs.map (fun p => (p.1, (0 : ℚ)))
  convertTreeRecursive log maxTags t.theta t.unigramFreqs t.root [] tagProbs []

/-- `NewLookupSuffixHandler` (`doc.go` lines 232-240). -/
def NewLookupSuffixHandler (log : ℚ → ℚ) (sh : SuffixHandler) : LookupSuffixHandler :=
  { upperProbs := convertTree log sh.upperTree sh.maxTags
    lowerProbs := convertTree log sh.lowerTree sh.maxTags
    dashProbs := convertTree log sh.dashTree sh.maxTags
    cardinalProbs := convertTree log sh.cardinalTree sh.maxTags
    maxLength := sh.lowerTree.maxLength }

/-- The fallback of a lexicon (`words.WordHandler` in the source).  In this
repository the configured fallbacks are the suffix handlers, a closed set
of variants. -/
inductive FallbackHandler where
  | suffix (h : SuffixHandler)
  | lookupSuffix (h : LookupSuffixHandler)

/-- `TagProbs` of a fallback handler, dispatching on the variant. -/
def FallbackHandler.TagProbs (log : ℚ → ℚ) (cardinal : List Char → Bool) :
    FallbackHandler → List Char → Option (List (Tag × ℚ))
  | .suffix h, word => h.TagProbs log cardinal word
  | .lookupSuffix h, word => h.TagProbs cardinal word

/-- `src/words/lexicon.go`, type `Lexicon`. -/
structure Lexicon where
  wordTagProbs : List (List Char × List (Tag × ℚ))
  fallback : Option FallbackHandler

/-- `calculateWordTagProbs` (`lexicon.go` lines 75-91): per (word, tag),
`log(f(w,t) / f(t))`. -/
def calculateWordTagProbs (log : ℚ → ℚ) (wtf : List (List Char × List (Tag × Int)))
    (uf : List (Unigram × Int)) : List (List Char × List (Tag × ℚ)) :=
  wtf.map (fun p =>
    (p.1, p.2.map (fun q =>
      (q.1, log ((q.2 : ℚ) / (((alookup (⟨q.1⟩ : Unigram) uf).getD 0 : Int) : ℚ))))))

/-- `NewLexicon` (`lexicon.go` lines 29-34). -/
def NewLexicon (log : ℚ → ℚ) (wtf : List (List Char × List (Tag × Int)))
    (uf : List (Unigram × Int)) : Lexicon :=
  { wordTagProbs := calculateWordTagProbs log wtf uf, fallback := none }

/-- `NewLexiconWithFallback` (`lexicon.go` lines 41-46). -/
def NewLexiconWithFallback (log : ℚ → ℚ) (wtf : List (List Char × List (Tag × Int)))
    (uf : List (Unigram × Int)) (fallback : FallbackHandler) : Lexicon :=
  { wordTagProbs := calculateWordTagProbs log wtf uf, fallback := some fallback }

/-- `Lexicon.TagProbs` (`lexicon.go` lines 51-73): exact lookup; on a miss,
a lowercased retry for capitalized words (`runes[0]` panics on the empty
word, modelled as `none`); then the fallback; else the empty mapping. -/
def Lexicon.TagProbs (log : ℚ → ℚ) (cardinal : List Char → Bool) (l : Lexicon)
    (word : List Char) : Option (List (Tag × ℚ)) :=
  match alookup word l.wordTagProbs with
  | some probs => some probs
  | none =>
    match word with
    | [] => none
    | c :: _ =>
      let lowered : Option (List (Tag × ℚ)) :=
        if c.isUpper then alookup (word.map Char.toLower) l.wordTagProbs else none
      match lowered with
      | some probs => some probs
      | none =>
        match l.fallback with
        | some fb => fb.TagProbs log cardinal word
        | none => some []

/-- `src/words/lexicon.go`, type `SubstLexicon`.  Each substitution models
one `Pattern.ReplaceAllString` as a string transformer. -/
structure SubstLexicon where
  lexicon : Lexicon
  substitutions : List (List Char → List Char)
  fallback : Option FallbackHandler

/-- `SubstLexicon.TagProbs` (`lexicon.go` lines 130-153): inner lexicon
first; if the result is empty, apply all substitutions and retry; if still
empty, use the fallback if available, else return the (empty) retry
result. -/
def SubstLexicon.TagProbs (log : ℚ → ℚ) (cardinal : List Char → Bool)
    (l : SubstLexicon) (word : List Char) : Option (List (Tag × ℚ)) :=
  match l.lexicon.TagProbs log cardinal word with
  | none => none
  | some probs =>
    if probs.length ≠ 0 then some probs
    else
      let substWord := l.substitutions.foldl (fun w s => s w) word
      match l.lexicon.TagProbs log cardinal substWord with
      | none => none
      | some probs2 =>
        if probs2.length ≠ 0 then some probs2
        else
          match l.fallback with
          | some fb => fb.TagProbs log cardinal word
          | none => some probs2

/-! ## The tag bijection (`StringNumberer`, `src/model`) -/

/-- `model.StringNumberer`: a bijection between labels and numbers. -/
structure StringNumberer where
  labelNumbers : List (List Char × Nat)
  labels : List (List Char)
deriving DecidableEq

/-- `StringNumberer.Number`: return the number of the label, inserting a
fresh mapping — mutating the numberer — when the label is absent.  The
returned pair is (number, numberer after the call). -/
def StringNumberer.Number (l : StringNumberer) (label : List Char) :
    Nat × StringNumberer :=
  match alookup label l.labelNumbers with
  | some idx => (idx, l)
  | none =>
    let idx := l.labelNumbers.length
    (idx, ⟨l.labelNumbers ++ [(label, idx)], l.labels ++ [label]⟩)

/-- `StringNumberer.Label`: the label for a number (in-range in all
reachable uses; out of range modelled by the empty label). -/
def StringNumberer.Label (l : StringNumberer) (number : Nat) : List Char :=
  l.labels.getD number []

/-! ## The decoder (`src/tagger/hmm.go`)

Probabilities inside the trellis are `Option ℚ`: `none` is
`math.Inf(-1)`.  `OLT` is the Go `<` on these values.  The trigram model
and the word handler are interface values in the source and are modelled
as function parameters; the trigram model returns finite log-probabilities.
Go map iteration order is modelled by list order.  The trellis keeps every
column (the source keeps previous columns reachable through backpointers);
a backpointer stores the index of its state in the column two positions
back rather than a Go pointer. -/

/-- Strict `<` on trellis probabilities, with `none` as minus infinity. -/
def OLT (a b : Option ℚ) : Prop :=
  match b with
  | none => False
  | some bv =>
    match a with
    | none => True
    | some av => av < bv

instance (a b : Option ℚ) : Decidable (OLT a b) :=
  match b with
  | none => .isFalse (fun h => h)
  | some bv =>
    match a with
    | none => .isTrue trivial
    | some av => inferInstanceAs (Decidable (av < bv))

/-- `src/tagger/hmm.go`, type `backpointer`: the best predecessor (an index
into the column two positions back, `none` for Go's nil) and the score. -/
structure BP where
  state : Option Nat
  prob : Option ℚ
deriving DecidableEq

/-- `src/tagger/hmm.go`, type `trellisState`: a tag and its backpointers,
keyed by the index of the predecessor state in the previous column. -/
structure VitState where
  tag : Tag
  bps : List (Nat × BP)
deriving DecidableEq

instance : Inhabited VitState := ⟨⟨⟨0, false⟩, []⟩⟩

/-- One column of the trellis. -/
abbrev Column := List VitState

/-- The tag of the state at index `i` of a column (indices are in range in
all reachable uses). -/
def tagAt (col : Column) (i : Nat) : Tag := (col.getD i default).tag

/-- The inner loop of `viterbi` (`hmm.go` lines 155-171): the best
surviving predecessor `t1` for a fixed `(t2, t3)` pair, skipping
backpointers whose score is below the beam. -/
def bestOver (tprob : Trigram → ℚ) (prevPrev : Column) (t2tag t3tag : Tag)
    (tagProb : ℚ) (beam : Option ℚ) (bps : List (Nat × BP)) : BP :=
  bps.foldl
    (fun acc p =>
      if OLT p.2.prob beam then acc
      else
        let prob := p.2.prob.map
          (fun q => tprob ⟨tagAt prevPrev p.1, t2tag, t3tag⟩ + tagProb + q)
        if OLT acc.prob prob then ⟨some p.1, prob⟩ else acc)
    ⟨none, none⟩

/-- One position of `viterbi` (`hmm.go` lines 150-181): a new state per
candidate tag, with one backpointer per state of the previous column. -/
def stepColumn (tprob : Trigram → ℚ) (prevPrev prev : Column) (beam : Option ℚ)
    (tagProbs : List (Tag × ℚ)) : Column :=
  tagProbs.map (fun tp =>
    { tag := tp.1
      bps := prev.enum.map (fun jt2 =>
        (jt2.1, bestOver tprob prevPrev jt2.2.tag tp.1 tp.2 beam jt2.2.bps)) })

/-- The per-position best score (`columnHighestProb` in `hmm.go`). -/
def columnBest (col : Column) : Option ℚ :=
  col.foldl (fun m s => s.bps.foldl (fun m p => if OLT m p.2.prob then p.2.prob else m) m) none

/-- The token loop of `viterbi` (`hmm.go` lines 142-186), carrying every
built column (most recent first) and the beam threshold, which starts at
the float zero value and becomes `columnHighestProb - log(beamFactor)`
after each position.  `none` models the panic on a token with no tag
probabilities. -/
def viterbiLoop (tprob : Trigram → ℚ) (wh : List Char → List (Tag × ℚ))
    (logBeam : ℚ) : List (List Char) → List Column → Option ℚ → Option (List Column)
  | [], cols, _ => some cols
  | tok :: rest, cols, beam =>
    let tagProbs := wh tok
    if tagProbs = [] then none
    else
      let prev := cols.getD 0 []
      let prevPrev := cols.getD 1 []
      let newCol := stepColumn tprob prevPrev prev beam tagProbs
      viterbiLoop tprob wh logBeam rest (newCol :: cols)
        ((columnBest newCol).map (fun b => b - logBeam))

/-- `HMMTagger.viterbi` (`hmm.go` lines 128-189): two start states with one
zero-score backpointer, then one column per sentence token and one for the
end marker.  `logBeam` models the stored `beamFactor` field, which
`NewHMMTagger` sets to `math.Log` of the configured beam factor (so a
configured beam factor of 1 is `logBeam = 0`). -/
def viterbi (tprob : Trigram → ℚ) (wh : List Char → List (Tag × ℚ)) (logBeam : ℚ)
    (startTag : Tag) (sentence : List (List Char)) : Option (List Column) :=
  let col0 : Column := [⟨startTag, []⟩]
  let col1 : Column := [⟨startTag, [(0, ⟨none, some 0⟩)]⟩]
  viterbiLoop tprob wh logBeam (sentence ++ [endTokenChars]) [col1, col0] (some 0)

/-- The argmax over the last column (`hmm.go` lines 43-52): the tail state
and the backpointer key (`beforeTail`) of the highest-scoring backpointer,
with its score. -/
def bestLast (lastColumn : Column) : Option (VitState × Nat) × Option ℚ :=
  lastColumn.foldl
    (fun acc st =>
      st.bps.foldl
        (fun acc p => if OLT acc.2 p.2.prob then (some (st, p.1), p.2.prob) else acc)
        acc)
    (none, none)

/-- The traceback loop of `highestProbabilitySequence` (`hmm.go` lines
58-67): collect the `uint` tag codes while walking backpointers; a missing
backpointer key reads as the zero value (nil state). -/
def traceback : List Column → VitState → Option Nat → List Nat
  | _, tail, none => [tail.tag.tag]
  | [], tail, some _ => [tail.tag.tag]
  | c :: rest, tail, some j =>
    tail.tag.tag ::
      traceback rest (c.getD j default)
        (match alookup j tail.bps with
         | some bp => bp.state
         | none => none)

/-- `Trellis.highestProbabilitySequence` (`hmm.go` lines 38-72): argmax
over the last column, traceback, reverse.  `none` models the panic on a
nil tail. -/
def highestProbabilitySequence (cols : List Column) : Option (List Nat × Option ℚ) :=
  match cols with
  | [] => none
  | last :: rest =>
    match bestLast last with
    | (none, _) => none
    | (some tj, highestProb) =>
      some ((traceback rest tj.1 (some tj.2)).reverse, highestProb)

/-- `Trellis.Tags` (`hmm.go` lines 24-36): drop the two leading start
markers and the trailing end marker, and convert tag codes to labels. -/
def TrellisTags (numberer : StringNumberer) (cols : List Column) :
    Option (List (List Char) × Option ℚ) :=
  (highestProbabilitySequence cols).map
    (fun r => (((r.1.drop 2).dropLast).map numberer.Label, r.2))

/-- `HMMTagger.Tag` (`hmm.go` lines 115-126) together with the one
tag-bijection access of `viterbi` (line 133): the padded token sequence
starts with `model.StartToken`, whose number is obtained with
`Number` — mutating the shared numberer when the label is absent.  The
result pairs the trellis with the numberer as it stands after the call. -/
def HMMTaggerTag (tprob : Trigram → ℚ) (wh : List Char → List (Tag × ℚ))
    (logBeam : ℚ) (numberer : StringNumberer) (sentence : List (List Char)) :
    Option (List Column) × StringNumberer :=
  let r := numberer.Number startTokenChars
  (viterbi tprob wh logBeam ⟨r.1, false⟩ sentence, r.2)

/-! ## Exhaustive Viterbi (spec side of claim C1) -/

/-- Modelled from the spec: the best predecessor for a fixed `(t2, t3)`
pair in an exhaustive, unpruned Viterbi computation — `bestOver` without
the beam check. -/
def bestOverFull (tprob : Trigram → ℚ) (prevPrev : Column) (t2tag t3tag : Tag)
    (tagProb : ℚ) (bps : List (Nat × BP)) : BP :=
  bps.foldl
    (fun acc p =>
      let prob := p.2.prob.map
        (fun q => tprob ⟨tagAt prevPrev p.1, t2tag, t3tag⟩ + tagProb + q)
      if OLT acc.prob prob then ⟨some p.1, prob⟩ else acc)
    ⟨none, none⟩

/-- Modelled from the spec: one position of the exhaustive, unpruned
Viterbi computation. -/
def stepColumnFull (tprob : Trigram → ℚ) (prevPrev prev : Column)
    (tagProbs : List (Tag × ℚ)) : Column :=
  tagProbs.map (fun tp =>
    { tag := tp.1
      bps := prev.enum.map (fun jt2 =>
        (jt2.1, bestOverFull tprob prevPrev jt2.2.tag tp.1 tp.2 jt2.2.bps)) })

/-- Modelled from the spec: the token loop of the exhaustive, unpruned
Viterbi computation (no beam threshold at all). -/
def viterbiLoopFull (tprob : Trigram → ℚ) (wh : List Char → List (Tag × ℚ)) :
    List (List Char) → List Column → Option (List Column)
  | [], cols => some cols
  | tok :: rest, cols =>
    let tagProbs := wh tok
    if tagProbs = [] then none
    else
      let prev := cols.getD 0 []
      let prevPrev := cols.getD 1 []
      viterbiLoopFull tprob wh rest (stepColumnFull tprob prevPrev prev tagProbs :: cols)

/-- Modelled from the spec: an exhaustive, unpruned Viterbi computation
over the same model and sentence. -/
def viterbiFull (tprob : Trigram → ℚ) (wh : List Char → List (Tag × ℚ))
    (startTag : Tag) (sentence : List (List Char)) : Option (List Column) :=
  let col0 : Column := [⟨startTag, []⟩]
  let col1 : Column := [⟨startTag, [(0, ⟨none, some 0⟩)]⟩]
  viterbiLoopFull tprob wh (sentence ++ [endTokenChars]) [col1, col0]

/-- The score returned by `Tags` for a decoded trellis, with `none` for a
failed decode. -/
def decodeScore (r : Option (List Column)) : Option ℚ :=
  match r with
  | none => none
  | some cols =>
    match highestProbabilitySequence cols with
    | none => none
    | some s => s.2

/-- The tag-code sequence returned through `Tags` for a decoded trellis. -/
def decodeSeq (r : Option (List Column)) : Option (List Nat) :=
  match r with
  | none => none
  | some cols =>
    match highestProbabilitySequence cols with
    | none => none
    | some s => some s.1

/-- The entry stored by `convertTreeRecursive` for a root path of the trie:
follow the path, carrying the per-node update, and produce the node's
stored entry; `none` when the path does not exist in the trie. -/
def pathEntry (log : ℚ → ℚ) (maxTags : Nat) (theta : ℚ) (uf : List (Unigram × Int)) :
    TreeNode → List (Tag × ℚ) → List Char → Option (List (Tag × ℚ))
  | n, tp, [] =>
    some (bestNLogSpace log (bayesianInversion uf (nodeUpdate theta n tp)) maxTags)
  | n, tp, c :: rest =>
    match alookup c n.children with
    | some child => pathEntry log maxTags theta uf child (nodeUpdate theta n tp) rest
    | none => none

mutual

/-- Structural well-formedness of a trie node: distinct child runes, at
every level.  This holds of every trie built by `addSuffix`, which never
duplicates a child key. -/
def treeWF : TreeNode → Bool
  | .mk children _ _ => decide (children.map Prod.fst).Nodup && treeWFChildren children

/-- Well-formedness of all trees of a child list. -/
def treeWFChildren : List (Char × TreeNode) → Bool
  | [] => true
  | (_, cn) :: rest => treeWF cn && treeWFChildren rest

end

/-- `p` is an initial segment of `k`. -/
def isInitSeg (p k : List Char) : Prop := k.take p.length = p

instance (p k : List Char) : Decidable (isInitSeg p k) :=
  inferInstanceAs (Decidable (k.take p.length = p))

/-! ## Well-formedness predicates used to state theorems

These record construction invariants of handlers built from training data:
lexicon entries carry at least one tag, suffix-tree roots carry at least
one (non-marker) tag, the configured maximum tag count is positive, and a
converted lookup table stores a non-empty entry for the empty suffix. -/

/-- Every stored word maps to a non-empty tag distribution. -/
def entriesNonEmpty (m : List (List Char × List (Tag × ℚ))) : Bool :=
  m.all (fun e => !e.2.isEmpty)

/-- A suffix handler whose four roots know at least one tag and which
returns at least one tag. -/
def suffixHandlerWF (sh : SuffixHandler) : Bool :=
  !sh.upperTree.root.tagFreqs.isEmpty && !sh.lowerTree.root.tagFreqs.isEmpty &&
  !sh.dashTree.root.tagFreqs.isEmpty && !sh.cardinalTree.root.tagFreqs.isEmpty &&
  decide (1 ≤ sh.maxTags)

/-- A converted per-class lookup table: all entries non-empty and an entry
stored for the empty suffix. -/
def lookupMapWF (m : List (List Char × List (Tag × ℚ))) : Bool :=
  entriesNonEmpty m &&
    (match alookup ([] : List Char) m with
     | some v => !v.isEmpty
     | none => false)

/-- A lookup suffix handler whose four class tables are well-formed. -/
def lookupHandlerWF (lh : LookupSuffixHandler) : Bool :=
  lookupMapWF lh.upperProbs && lookupMapWF lh.lowerProbs &&
  lookupMapWF lh.dashProbs && lookupMapWF lh.cardinalProbs

/-- Well-formedness of a fallback handler. -/
def fallbackWF : FallbackHandler → Bool
  | .suffix h => suffixHandlerWF h
  | .lookupSuffix h => lookupHandlerWF h

/-- A lexicon with non-empty stored distributions and a well-formed
fallback, if any. -/
def lexiconWF (l : Lexicon) : Bool :=
  entriesNonEmpty l.wordTagProbs &&
    (match l.fallback with
     | none => true
     | some fb => fallbackWF fb)

/-- A substitution lexicon with a well-formed inner lexicon and fallback. -/
def substLexiconWF (sl : SubstLexicon) : Bool :=
  lexiconWF sl.lexicon &&
    (match sl.fallback with
     | none => true
     | some fb => fallbackWF fb)

/-! ## Concrete instances used by witnesses and counterexamples -/

/-- A concrete tag with code 0. -/
def tA : Tag := ⟨0, false⟩

/-- A concrete tag with code 1. -/
def tB : Tag := ⟨1, false⟩

/-- A concrete tag with code 2. -/
def tC : Tag := ⟨2, false⟩

/-- A concrete start-marker-like tag with code 3. -/
def tS : Tag := ⟨3, false⟩

/-- A concrete end-marker-like tag with code 4. -/
def tE : Tag := ⟨4, false⟩

/-- Unigram table for the claim C2 counterexample: corpus size 9. -/
def c2uf : List (Unigram × Int) := [(⟨tA⟩, 1), (⟨tB⟩, 5), (⟨tC⟩, 3)]

/-- Bigram table for the claim C2 counterexample. -/
def c2bf : List (Bigram × Int) := [(⟨tA, tB⟩, 2), (⟨tB, tC⟩, 2)]

/-- The observed trigram of the claim C2 counterexample, with count 1. -/
def c2tri : Trigram := ⟨tA, tB, tC⟩

/-- Unigram table for the claim C3 counterexample: corpus size 5. -/
def c3uf : List (Unigram × Int) := [(⟨tA⟩, 2), (⟨tB⟩, 3)]

/-- Accumulated probabilities fed to `bayesianInversion` in the claim C3
counterexample. -/
def c3tp : List (Tag × ℚ) := [(tA, 1)]

/-- Unigram table for the claim C6 counterexample: two marker entries and
two content tags with equal counts. -/
def c6uf : List (Unigram × Int) := [(⟨tS⟩, 1), (⟨tE⟩, 1), (⟨tA⟩, 2), (⟨tB⟩, 2)]

/-- The skipped (marker) tag numbers of the claim C6 counterexample. -/
def c6skip : List Nat := [3, 4]

/-- The marker-excluded part of `c6uf`. -/
def c6excl : List (Unigram × Int) := [(⟨tA⟩, 2), (⟨tB⟩, 2)]

/-- A concrete transition model for the claim C4 witness. -/
def c4model : LinearInterpolationModel :=
  { unigramProbs := [(⟨tA⟩, -1), (⟨tB⟩, -2)]
    bigramProbs := [(⟨tA, tB⟩, -3)]
    trigramProbs := [(⟨tA, tA, tB⟩, -4)] }

/-- Frequency tables for the claim C9 witness. -/
def c9tf : List (Trigram × Int) := [(⟨tA, tA, tA⟩, 1), (⟨tA, tA, tB⟩, 2)]

/-- Unigram table for the claim C9 witness. -/
def c9uf : List (Unigram × Int) := [(⟨tA⟩, 3), (⟨tB⟩, 1)]

/-- Bigram table for the claim C9 witness. -/
def c9bf : List (Bigram × Int) := [(⟨tA, tA⟩, 2)]

/-- Weak order on trellis probabilities, with `none` (minus infinity) below
everything; used to compare pruned and unpruned runs. -/
def OLE (a b : Option ℚ) : Prop :=
  match a with
  | none => True
  | some av =>
    match b with
    | none => False
    | some bv => av ≤ bv

/-- Pointwise comparison of two trellis states: same tag, same backpointer
keys, and pointwise `OLE` on backpointer scores. -/
def stLE (s1 s2 : VitState) : Prop :=
  s1.tag = s2.tag ∧
    List.Forall₂ (fun p q => p.1 = q.1 ∧ OLE p.2.prob q.2.prob) s1.bps s2.bps

/-- Pointwise comparison of trellis columns. -/
def colLE : Column → Column → Prop := List.Forall₂ stLE

/-- Pointwise comparison of column histories. -/
def colsLE : List Column → List Column → Prop := List.Forall₂ colLE

/-- Transition scores of the claim C1 counterexample: the best path through
tag 0 is cheap at the start but expensive at the end; the path through
tag 1 is the reverse. -/
def c1tp : Trigram → ℚ := fun tri =>
  if tri = ⟨tS, tS, tA⟩ then -1
  else if tri = ⟨tS, tS, tB⟩ then 0
  else if tri = ⟨tS, tA, tE⟩ then 0
  else if tri = ⟨tS, tB, tE⟩ then -10
  else 0

/-- Emission scores of the claim C1 counterexample. -/
def c1wh : List Char → List (Tag × ℚ) := fun w =>
  if w = ['w'] then [(tA, 0), (tB, 0)] else [(tE, 0)]

/-- Backpointer well-formedness of one trellis state relative to the stack
of columns strictly below its own column (most recent first): one
backpointer per state of the column below, keyed in order, and every
score-bearing backpointer points one level further down to a score-bearing
backpointer — except just above the bottom start column, where the chain
ends with a nil pointer. -/
def StateOK : List Column → VitState → Prop
  | [], s => s.bps = []
  | c :: rest, s =>
      s.bps.map Prod.fst = List.range c.length ∧
      ∀ jbp ∈ s.bps, jbp.2.prob ≠ none →
        (match rest with
         | [] => jbp.2.state = none
         | _ :: _ => ∃ k bp', jbp.2.state = some k ∧
             alookup k (c.getD jbp.1 default).bps = some bp' ∧ bp'.prob ≠ none)

/-- Every column's states are well-formed relative to the columns below
them. -/
def ColsOK : List Column → Prop
  | [] => True
  | c :: rest => (∀ s ∈ c, StateOK rest s) ∧ ColsOK rest

/-- All-zero trigram scores, used by the claim C8 witness. -/
def c8tp : Trigram → ℚ := fun _ => 0

/-- A one-candidate-per-token word handler, used by the claim C8
witness. -/
def c8wh : List Char → List (Tag × ℚ) := fun w =>
  if w = ['w'] then [(tA, 0)] else [(tE, 0)]

/-- A numberer that already stores the start marker (as number 3), used by
the claim C8 witness. -/
def c8num : StringNumberer := ⟨[(startTokenChars, 3)], [['N']]⟩

/-- The trellis built by the claim C8 witness run. -/
def c8cols : List Column :=
  [[⟨tE, [(0, ⟨some 0, some 0⟩)]⟩],
   [⟨tA, [(0, ⟨some 0, some 0⟩)]⟩],
   [⟨tS, [(0, ⟨none, some 0⟩)]⟩],
   [⟨tS, []⟩]]

/-- A word handler that, like a lexicon the frequency collector builds
from marker-padded training sentences (it stores the literal
start/end-marker tokens with their marker tags), proposes the start
marker tag (code 3) for the literal start-marker token; used by the
claim C8 counterexample. -/
def c8cwh : List Char → List (Tag × ℚ) := fun w =>
  if w = startTokenChars then [(tS, 0)] else [(tE, 0)]

/-- The trellis built by the claim C8 counterexample run. -/
def c8ccols : List Column :=
  [[⟨tE, [(0, ⟨some 0, some 0⟩)]⟩],
   [⟨tS, [(0, ⟨some 0, some 0⟩)]⟩],
   [⟨tS, [(0, ⟨none, some 0⟩)]⟩],
   [⟨tS, []⟩]]

/-- A small trie root with one child, used by the claim C5 witness. -/
def c5root : TreeNode := .mk [('a', .mk [] [(tA, 1)] 1)] [(tA, 2), (tB, 1)] 3

/-- A small word suffix tree used by the claim C5 witness. -/
def c5tree : WordSuffixTree :=
  { unigramFreqs := [(⟨tA⟩, 2), (⟨tB⟩, 1)], root := c5root, maxLength := 2, theta := 1 }

/-- A small suffix handler used by the claim C5 witness. -/
def c5sh : SuffixHandler := ⟨c5tree, c5tree, c5tree, c5tree, 10⟩

/-- A small word suffix tree used by the claim C7 theorems. -/
def c7tree : WordSuffixTree :=
  { unigramFreqs := [(⟨tA⟩, 2)], root := .mk [] [(tA, 2)] 2, maxLength := 2, theta := 1 }

/-- A small suffix handler used by the claim C7 theorems. -/
def c7sh : SuffixHandler := ⟨c7tree, c7tree, c7tree, c7tree, 10⟩

/-- A small lookup suffix handler used by the claim C7 witness. -/
def c7lh : LookupSuffixHandler :=
  { upperProbs := [([], [(tA, 5)])]
    lowerProbs := [([], [(tA, 5)])]
    dashProbs := [([], [(tA, 5)])]
    cardinalProbs := [([], [(tA, 5)])]
    maxLength := 2 }

/-- A small lexicon used by the claim C7 witness. -/
def c7lex : Lexicon := ⟨[((['a'] : List Char), [(tA, 5)])], none⟩

/-- A small substitution lexicon used by the claim C7 witness. -/
def c7sub : SubstLexicon := ⟨c7lex, [], none⟩

/-! ## Helper lemmas -/

theorem alookup_eq_none_iff {α β : Type} [DecidableEq α] (k : α) (l : List (α × β)) :
    alookup k l = none ↔ k ∉ akeys l := by
  induction l with
  | nil => simp [alookup, akeys]
  | cons p rest ih =>
    obtain ⟨k', v⟩ := p
    by_cases h : k' = k
    · subst h; simp [alookup, akeys]
    · have h' : ¬ (k = k') := fun hh => h hh.symm
      simp [alookup, akeys, h, h', ih]

theorem mem_akeys_of_alookup {α β : Type} [DecidableEq α] {k : α} {l : List (α × β)}
    {v : β} (h : alookup k l = some v) : k ∈ akeys l := by
  by_contra hk
  rw [← alookup_eq_none_iff (β := β) k l] at hk
  rw [h] at hk
  exact Option.noConfusion hk

/-! ## Claim C4 -/

/-- C4: `TrigramProb` returns the precomputed trigram log-probability when
the trigram has a table entry; otherwise the bigram `(t2,t3)` entry when
present; otherwise the unigram `(t3)` entry when present; and it panics
(returns `none`) exactly when `t3` has no unigram entry, given tables in
which every stored trigram and bigram ends in a tag with a unigram entry
(as do tables built from training counts).  It never substitutes a default
probability. -/
theorem c4_trigram_backoff_chain (m : LinearInterpolationModel) (tri : Trigram)
    (hTri : ∀ t ∈ akeys m.trigramProbs, (⟨t.t3⟩ : Unigram) ∈ akeys m.unigramProbs)
    (hBi : ∀ b ∈ akeys m.bigramProbs, (⟨b.t2⟩ : Unigram) ∈ akeys m.unigramProbs) :
    (∀ p, alookup tri m.trigramProbs = some p → m.TrigramProb tri = some p) ∧
    (alookup tri m.trigramProbs = none →
      ∀ p, alookup (⟨tri.t2, tri.t3⟩ : Bigram) m.bigramProbs = some p →
        m.TrigramProb tri = some p) ∧
    (alookup tri m.trigramProbs = none →
      alookup (⟨tri.t2, tri.t3⟩ : Bigram) m.bigramProbs = none →
      ∀ p, alookup (⟨tri.t3⟩ : Unigram) m.unigramProbs = some p →
        m.TrigramProb tri = some p) ∧
    (m.TrigramProb tri = none ↔ (⟨tri.t3⟩ : Unigram) ∉ akeys m.unigramProbs) := by
  unfold LinearInterpolationModel.TrigramProb
  cases h1 : alookup tri m.trigramProbs with
  | some p =>
    refine ⟨fun q hq => by simp_all, fun h => by simp_all, fun h => by simp_all, ?_⟩
    have : (⟨tri.t3⟩ : Unigram) ∈ akeys m.unigramProbs :=
      hTri tri (mem_akeys_of_alookup h1)
    simp [this]
  | none =>
    cases h2 : alookup (⟨tri.t2, tri.t3⟩ : Bigram) m.bigramProbs with
    | some p =>
      refine ⟨fun q hq => by simp_all, fun _ q hq => by simp_all,
        fun _ h => by simp_all, ?_⟩
      have : (⟨tri.t3⟩ : Unigram) ∈ akeys m.unigramProbs :=
        hBi ⟨tri.t2, tri.t3⟩ (mem_akeys_of_alookup h2)
      simp [this]
    | none =>
      cases h3 : alookup (⟨tri.t3⟩ : Unigram) m.unigramProbs with
      | some p =>
        refine ⟨fun q hq => by simp_all, fun _ q hq => by simp_all,
          fun _ _ q hq => by simp_all, ?_⟩
        have : (⟨tri.t3⟩ : Unigram) ∈ akeys m.unigramProbs := mem_akeys_of_alookup h3
        simp [this]
      | none =>
        refine ⟨fun q hq => by simp_all, fun _ q hq => by simp_all,
          fun _ _ q hq => by simp_all, ?_⟩
        simp [(alookup_eq_none_iff _ _).mp h3]

/-- Witness for C4 at a concrete model and query. -/
theorem c4_trigram_backoff_chain_witness :
    ((∀ t ∈ akeys c4model.trigramProbs, (⟨t.t3⟩ : Unigram) ∈ akeys c4model.unigramProbs) ∧
     (∀ b ∈ akeys c4model.bigramProbs, (⟨b.t2⟩ : Unigram) ∈ akeys c4model.unigramProbs)) ∧
    ((∀ p, alookup (⟨tB, tA, tB⟩ : Trigram) c4model.trigramProbs = some p →
        c4model.TrigramProb ⟨tB, tA, tB⟩ = some p) ∧
     (alookup (⟨tB, tA, tB⟩ : Trigram) c4model.trigramProbs = none →
       ∀ p, alookup (⟨tA, tB⟩ : Bigram) c4model.bigramProbs = some p →
         c4model.TrigramProb ⟨tB, tA, tB⟩ = some p) ∧
     (alookup (⟨tB, tA, tB⟩ : Trigram) c4model.trigramProbs = none →
       alookup (⟨tA, tB⟩ : Bigram) c4model.bigramProbs = none →
       ∀ p, alookup (⟨tB⟩ : Unigram) c4model.unigramProbs = some p →
         c4model.TrigramProb ⟨tB, tA, tB⟩ = some p) ∧
     (c4model.TrigramProb ⟨tB, tA, tB⟩ = none ↔
       (⟨tB⟩ : Unigram) ∉ akeys c4model.unigramProbs)) :=
  ⟨⟨by decide, by decide⟩, c4_trigram_backoff_chain c4model ⟨tB, tA, tB⟩ (by decide) (by decide)⟩

/-! ## Claim C2 -/

/-- C2 counterexample: at these tables the unigram and bigram leave-one-out
estimates tie (both 1/4) and beat the trigram estimate (0), yet the branch
credits the trigram's count to the λ3 accumulator (`lambdaBranch = 2`),
not the λ1 accumulator (`0`) the claim requires. -/
theorem c2_tie_goes_to_lambda3 :
    l1Est (corpusSize c2uf) c2uf c2tri = l2Est c2uf c2bf c2tri ∧
    (l1Est (corpusSize c2uf) c2uf c2tri).Gt (l3Est c2bf c2tri 1) ∧
    lambdaBranch (corpusSize c2uf) c2uf c2bf c2tri 1 = 2 := by
  have hcs : corpusSize c2uf = 9 := by decide
  rw [hcs]
  norm_num [l1Est, l2Est, l3Est, lambdaBranch, alookup, fdiv, GFloat.Gt,
    c2uf, c2bf, c2tri, tA, tB, tC]

/-- C2 (amended): a trigram's count is credited to the λ1 accumulator iff
the unigram leave-one-out estimate strictly exceeds both the bigram and the
trigram estimates, to λ2 iff the bigram estimate strictly exceeds both
others, and to λ3 in every remaining case — in particular whenever the
maximal estimate is involved in a tie (strict float `>` fails on ties, and
all comparisons with NaN fail). -/
theorem c2_lambda_branch_characterization (cs : Int) (uf : List (Unigram × Int))
    (bf : List (Bigram × Int)) (tri : Trigram) (f3 : Int) :
    (lambdaBranch cs uf bf tri f3 = 0 ↔
      (l1Est cs uf tri).Gt (l2Est uf bf tri) ∧ (l1Est cs uf tri).Gt (l3Est bf tri f3)) ∧
    (lambdaBranch cs uf bf tri f3 = 1 ↔
      ¬ ((l1Est cs uf tri).Gt (l2Est uf bf tri) ∧ (l1Est cs uf tri).Gt (l3Est bf tri f3)) ∧
      (l2Est uf bf tri).Gt (l1Est cs uf tri) ∧ (l2Est uf bf tri).Gt (l3Est bf tri f3)) ∧
    (lambdaBranch cs uf bf tri f3 = 2 ↔
      ¬ ((l1Est cs uf tri).Gt (l2Est uf bf tri) ∧ (l1Est cs uf tri).Gt (l3Est bf tri f3)) ∧
      ¬ ((l2Est uf bf tri).Gt (l1Est cs uf tri) ∧ (l2Est uf bf tri).Gt (l3Est bf tri f3))) := by
  unfold lambdaBranch
  by_cases h1 : (l1Est cs uf tri).Gt (l2Est uf bf tri) ∧ (l1Est cs uf tri).Gt (l3Est bf tri f3)
  · simp [h1]
  · by_cases h2 : (l2Est uf bf tri).Gt (l1Est cs uf tri) ∧ (l2Est uf bf tri).Gt (l3Est bf tri f3)
    · simp [h1, h2]
    · simp [h1, h2]

/-! ## Claim C9 -/

theorem foldl_add_snd {α : Type} (l : List (α × Int)) (init : Int) :
    l.foldl (fun a p => a + p.2) init = init + (l.map Prod.snd).sum := by
  induction l generalizing init with
  | nil => simp
  | cons p rest ih => simp [ih, add_assoc]

theorem lambdaAccums_sum (cs : Int) (uf : List (Unigram × Int))
    (bf : List (Bigram × Int)) (tf : List (Trigram × Int)) :
    (lambdaAccums cs uf bf tf).1 + (lambdaAccums cs uf bf tf).2.1 +
      (lambdaAccums cs uf bf tf).2.2 = (tf.map Prod.snd).sum := by
  unfold lambdaAccums
  suffices h : ∀ (l : List (Trigram × Int)) (a : Int × Int × Int),
      (l.foldl (fun acc p =>
        let b := lambdaBranch cs uf bf p.1 p.2
        if b = 0 then (acc.1 + p.2, acc.2.1, acc.2.2)
        else if b = 1 then (acc.1, acc.2.1 + p.2, acc.2.2)
        else (acc.1, acc.2.1, acc.2.2 + p.2)) a).1 +
      (l.foldl (fun acc p =>
        let b := lambdaBranch cs uf bf p.1 p.2
        if b = 0 then (acc.1 + p.2, acc.2.1, acc.2.2)
        else if b = 1 then (acc.1, acc.2.1 + p.2, acc.2.2)
        else (acc.1, acc.2.1, acc.2.2 + p.2)) a).2.1 +
      (l.foldl (fun acc p =>
        let b := lambdaBranch cs uf bf p.1 p.2
        if b = 0 then (acc.1 + p.2, acc.2.1, acc.2.2)
        else if b = 1 then (acc.1, acc.2.1 + p.2, acc.2.2)
        else (acc.1, acc.2.1, acc.2.2 + p.2)) a).2.2 =
      a.1 + a.2.1 + a.2.2 + (l.map Prod.snd).sum by
    simpa using h tf (0, 0, 0)
  intro l
  induction l with
  | nil => intro a; simp
  | cons p rest ih =>
    intro a
    simp only [List.foldl_cons, List.map_cons, List.sum_cons]
    by_cases h0 : lambdaBranch cs uf bf p.1 p.2 = 0
    · simp only [h0, if_pos rfl, reduceIte]
      rw [ih]; ring
    · by_cases h1 : lambdaBranch cs uf bf p.1 p.2 = 1
      · simp only [h1, if_neg (Nat.one_ne_zero), eq_self_iff_true, if_true]
        rw [ih]; ring
      · simp only [if_neg h0, if_neg h1]
        rw [ih]; ring

theorem sum_snd_nonneg {α : Type} (l : List (α × Int))
    (h : ∀ p ∈ l, 1 ≤ p.2) : 0 ≤ (l.map Prod.snd).sum := by
  induction l with
  | nil => simp
  | cons p rest ih =>
    simp only [List.map_cons, List.sum_cons]
    have h1 := h p (by simp)
    have h2 := ih (fun x hx => h x (by simp [hx]))
    omega

theorem sum_pos_of_all_pos {α : Type} (l : List (α × Int)) (hne : l ≠ [])
    (hpos : ∀ p ∈ l, 1 ≤ p.2) : 0 < (l.map Prod.snd).sum := by
  cases l with
  | nil => exact absurd rfl hne
  | cons p rest =>
    simp only [List.map_cons, List.sum_cons]
    have h1 := hpos p (by simp)
    have h2 := sum_snd_nonneg rest (fun x hx => hpos x (by simp [hx]))
    omega

/-- C9: for trigram frequency tables that are non-empty and hold positive
counts (as all tables built from observed training counts do), the three
deleted-interpolation weights returned by `calculateLambdas` sum exactly
to 1 in rational arithmetic. -/
theorem c9_lambdas_sum_to_one (cs : Int) (uf : List (Unigram × Int))
    (bf : List (Bigram × Int)) (tf : List (Trigram × Int)) (hne : tf ≠ [])
    (hpos : ∀ p ∈ tf, 1 ≤ p.2) :
    (calculateLambdas cs uf bf tf).L1 + (calculateLambdas cs uf bf tf).L2 +
      (calculateLambdas cs uf bf tf).L3 = 1 := by
  have hsum := lambdaAccums_sum cs uf bf tf
  have htot : 0 < (tf.map Prod.snd).sum := sum_pos_of_all_pos tf hne hpos
  have hT : (lambdaAccums cs uf bf tf).1 + (lambdaAccums cs uf bf tf).2.1 +
      (lambdaAccums cs uf bf tf).2.2 ≠ 0 := by rw [hsum]; exact htot.ne'
  unfold calculateLambdas
  simp only
  rw [div_add_div_same, div_add_div_same, ← Int.cast_add, ← Int.cast_add]
  exact div_self (by exact_mod_cast hT)

/-- Witness for C9 at concrete tables. -/
theorem c9_lambdas_sum_to_one_witness :
    (c9tf ≠ [] ∧ ∀ p ∈ c9tf, 1 ≤ p.2) ∧
    (calculateLambdas (corpusSize c9uf) c9uf c9bf c9tf).L1 +
      (calculateLambdas (corpusSize c9uf) c9uf c9bf c9tf).L2 +
      (calculateLambdas (corpusSize c9uf) c9uf c9bf c9tf).L3 = 1 :=
  ⟨⟨by decide, by decide⟩,
    c9_lambdas_sum_to_one (corpusSize c9uf) c9uf c9bf c9tf (by decide) (by decide)⟩

/-! ## Claim C3 -/

theorem alookup_bayesianInversion (uf : List (Unigram × Int)) (tp : List (Tag × ℚ))
    (tag : Tag) (p : ℚ) (h : alookup tag tp = some p) :
    alookup tag (bayesianInversion uf tp) =
      some (p / (((alookup (⟨tag⟩ : Unigram) uf).getD 0 : Int) : ℚ)) := by
  induction tp with
  | nil => simp [alookup] at h
  | cons q rest ih =>
    obtain ⟨qt, qv⟩ := q
    by_cases hq : qt = tag
    · subst hq
      simp only [alookup, eq_self_iff_true, if_true, Option.some.injEq] at h
      subst h
      simp only [bayesianInversion, List.map_cons, alookup, eq_self_iff_true, if_true]
    · simp only [alookup, if_neg hq] at h
      simp only [bayesianInversion, List.map_cons, alookup, if_neg hq]
      exact ih h

theorem suffixTagProbs_ends_in_inversion (theta : ℚ) (uf : List (Unigram × Int)) :
    ∀ (rs : List Char) (n : TreeNode) (tp : List (Tag × ℚ)),
    ∃ pre, n.suffixTagProbs theta uf rs tp = bayesianInversion uf pre := by
  intro rs
  induction rs with
  | nil => exact fun n tp => ⟨nodeUpdate theta n tp, rfl⟩
  | cons c rest ih =>
    intro n tp
    cases halt : alookup c n.children with
    | some child =>
      have heq : n.suffixTagProbs theta uf (c :: rest) tp =
          child.suffixTagProbs theta uf rest (nodeUpdate theta n tp) := by
        simp only [TreeNode.suffixTagProbs, halt]
      rw [heq]
      exact ih child (nodeUpdate theta n tp)
    | none =>
      have heq : n.suffixTagProbs theta uf (c :: rest) tp =
          bayesianInversion uf (nodeUpdate theta n tp) := by
        simp only [TreeNode.suffixTagProbs, halt]
      rw [heq]
      exact ⟨nodeUpdate theta n tp, rfl⟩

/-- C3 counterexample: `bayesianInversion` divides by the raw unigram
frequency, not by the unigram probability (frequency over corpus size) the
claim describes; at this input the code yields 1/2 where the claim's
formula yields 5/2. -/
theorem c3_inversion_not_by_probability :
    bayesianInversion c3uf c3tp ≠
      c3tp.map (fun p =>
        (p.1, p.2 / ((((alookup (⟨p.1⟩ : Unigram) c3uf).getD 0 : Int) : ℚ) /
          ((corpusSize c3uf : Int) : ℚ)))) := by
  have hcs : corpusSize c3uf = 5 := by decide
  rw [hcs]
  norm_num [bayesianInversion, alookup, c3uf, c3tp, tA, tB]

/-- C3 (amended): for every queried word, the suffix estimator's final step
before top-N selection and log conversion is a Bayesian inversion that
divides each tag's accumulated probability by that tag's raw global unigram
frequency (not by the frequency normalized by corpus size). -/
theorem c3_inversion_by_raw_frequency (t : WordSuffixTree) (word : List Char) :
    ∃ pre, t.suffixTagProbs word = bayesianInversion t.unigramFreqs pre ∧
      ∀ tag p, alookup tag pre = some p →
        alookup tag (t.suffixTagProbs word) =
          some (p / (((alookup (⟨tag⟩ : Unigram) t.unigramFreqs).getD 0 : Int) : ℚ)) := by
  obtain ⟨pre, hpre⟩ := suffixTagProbs_ends_in_inversion t.theta t.unigramFreqs
    (word.reverse.take t.maxLength) t.root
    (t.root.tagFreqs.map (fun p => (p.1, (0 : ℚ))))
  refine ⟨pre, hpre, fun tag p hp => ?_⟩
  rw [show t.suffixTagProbs word = bayesianInversion t.unigramFreqs pre from hpre]
  exact alookup_bayesianInversion t.unigramFreqs pre tag p hp

/-! ## Claim C6 -/

theorem foldl_filter_sum {α β : Type} [AddCommMonoid β] (c : α → Prop) [DecidablePred c]
    (f : α → β) (l : List α) (init : β) :
    l.foldl (fun a p => if c p then a else a + f p) init =
      init + ((l.filter (fun p => decide (¬ c p))).map f).sum := by
  induction l generalizing init with
  | nil => simp
  | cons p rest ih =>
    by_cases hc : c p
    · simp [hc, ih]
    · simp [hc, ih, add_assoc]

/-- C6 (amended): the squared smoothing weight θ² computed by `calcTheta`
is the marker-excluded sum of squared deviations of the tag-unigram
probabilities from the mean `1/n` — where `n` is the number of entries of
the whole unigram table, markers included — divided by `n - 1`, again with
`n` counting the whole table.  (The source returns the square root of this
value.) -/
theorem c6_theta_uses_full_table_size (uf : List (Unigram × Int)) (skip : List Nat) :
    calcThetaSq uf skip =
      ((uf.filter (fun p => decide (p.1.t1.tag ∉ skip))).map
        (fun p => ((p.2 : ℚ) /
          ((((uf.filter (fun p => decide (p.1.t1.tag ∉ skip))).map Prod.snd).sum : Int) : ℚ) -
          1 / (uf.length : ℚ)) ^ 2)).sum / ((uf.length : ℚ) - 1) := by
  have hS : uf.foldl (fun a p => if p.1.t1.tag ∈ skip then a else a + p.2) (0 : Int) =
      ((uf.filter (fun p => decide (¬ p.1.t1.tag ∈ skip))).map Prod.snd).sum := by
    rw [foldl_filter_sum (fun p => p.1.t1.tag ∈ skip) Prod.snd uf 0, zero_add]
  unfold calcThetaSq
  rw [hS]
  simp only [foldl_filter_sum (fun p => p.1.t1.tag ∈ skip)
    (fun p => ((p.2 : ℚ) /
      ((((uf.filter (fun p => decide (¬ p.1.t1.tag ∈ skip))).map Prod.snd).sum : Int) : ℚ) -
      1 / (uf.length : ℚ)) ^ 2) uf 0, zero_add]

/-- C6 counterexample: with two marker entries and two content tags of
equal probability, `calcTheta` is the square root of 1/24, while the
standard deviation of the marker-excluded distribution around its mean
`1/|tags|` (with `|tags|` counting the marker-excluded distribution, as the
claim states) is 0. -/
theorem c6_theta_differs_from_claim :
    Real.sqrt (calcThetaSq c6uf c6skip) ≠
      Real.sqrt (((c6excl.map (fun p => ((p.2 : ℚ) /
        (((c6excl.map Prod.snd).sum : Int) : ℚ) -
        1 / (c6excl.length : ℚ)) ^ 2)).sum / ((c6excl.length : ℚ) - 1) : ℚ)) := by
  have h1 : calcThetaSq c6uf c6skip = 1 / 24 := by
    norm_num [calcThetaSq, c6uf, c6skip, tA, tB, tS, tE]
  have h2 : ((c6excl.map (fun p => ((p.2 : ℚ) /
      (((c6excl.map Prod.snd).sum : Int) : ℚ) -
      1 / (c6excl.length : ℚ)) ^ 2)).sum / ((c6excl.length : ℚ) - 1) : ℚ) = 0 := by
    norm_num [c6excl, tA, tB]
  rw [h1, h2]
  have hpos : (0 : ℝ) < Real.sqrt ((1 / 24 : ℚ) : ℝ) := by
    rw [Real.sqrt_pos]
    norm_num
  have hz : Real.sqrt ((0 : ℚ) : ℝ) = 0 := by
    norm_num [Real.sqrt_zero]
  rw [hz]
  exact ne_of_gt hpos

/-! ## Claim C10 -/

/-- C10: tagging calls `Number(StartToken)` on the shared tag bijection,
and the bijection after a `Tag` call is unchanged precisely when the start
marker already has an entry; for a numberer lacking it, the call mutates
the shared numberer (appending a fresh mapping). -/
theorem c10_tag_mutates_numberer_iff (tprob : Trigram → ℚ)
    (wh : List Char → List (Tag × ℚ)) (logBeam : ℚ) (n : StringNumberer)
    (s : List (List Char)) :
    (HMMTaggerTag tprob wh logBeam n s).2 = n ↔
      startTokenChars ∈ akeys n.labelNumbers := by
  unfold HMMTaggerTag StringNumberer.Number
  cases h : alookup startTokenChars n.labelNumbers with
  | some idx =>
    simp only [h]
    simp [mem_akeys_of_alookup h]
  | none =>
    simp only [h]
    constructor
    · intro heq
      have hl : n.labelNumbers ++ [(startTokenChars, n.labelNumbers.length)] =
          n.labelNumbers := congrArg StringNumberer.labelNumbers heq
      have := congrArg List.length hl
      simp at this
    · intro hmem
      exact absurd hmem ((alookup_eq_none_iff _ _).mp h)

/-! ## Claim C7 -/

theorem alookup_some_mem {α β : Type} [DecidableEq α] {k : α} {l : List (α × β)} {v : β}
    (h : alookup k l = some v) : (k, v) ∈ l := by
  induction l with
  | nil => simp [alookup] at h
  | cons p rest ih =>
    obtain ⟨k', v'⟩ := p
    by_cases hk : k' = k
    · subst hk
      simp only [alookup, eq_self_iff_true, if_true, Option.some.injEq] at h
      subst h
      simp
    · simp only [alookup, if_neg hk] at h
      exact List.mem_cons_of_mem _ (ih h)

theorem suffixTagProbs_length (theta : ℚ) (uf : List (Unigram × Int)) :
    ∀ (rs : List Char) (n : TreeNode) (tp : List (Tag × ℚ)),
    (TreeNode.suffixTagProbs theta uf n rs tp).length = tp.length := by
  intro rs
  induction rs with
  | nil =>
    intro n tp
    simp [TreeNode.suffixTagProbs, bayesianInversion, nodeUpdate]
  | cons c rest ih =>
    intro n tp
    cases halt : alookup c n.children with
    | some child =>
      have heq : n.suffixTagProbs theta uf (c :: rest) tp =
          child.suffixTagProbs theta uf rest (nodeUpdate theta n tp) := by
        simp only [TreeNode.suffixTagProbs, halt]
      rw [heq, ih, nodeUpdate, List.length_map]
    | none =>
      have heq : n.suffixTagProbs theta uf (c :: rest) tp =
          bayesianInversion uf (nodeUpdate theta n tp) := by
        simp only [TreeNode.suffixTagProbs, halt]
      rw [heq]
      simp [bayesianInversion, nodeUpdate]

theorem insertWithLimit_ne_nil (slice : List TagProb) (limit index : Nat)
    (value : TagProb) : insertWithLimit slice limit index value ≠ [] := by
  unfold insertWithLimit
  simp

theorem foldl_insert_ne_nil (n : Nat) :
    ∀ (l : List (Tag × ℚ)) (acc : List TagProb), acc ≠ [] →
      l.foldl
        (fun sorted p =>
          let ip := searchIdx sorted p.2
          if ip < n then insertWithLimit sorted n ip ⟨p.1, p.2⟩ else sorted) acc ≠ [] := by
  intro l
  induction l with
  | nil => exact fun acc h => h
  | cons p rest ih =>
    intro acc hacc
    simp only [List.foldl_cons]
    by_cases hip : searchIdx acc p.2 < n
    · exact ih _ (by simp only [if_pos hip]; exact insertWithLimit_ne_nil acc n _ _)
    · exact ih _ (by simp only [if_neg hip]; exact hacc)

theorem bestNSorted_ne_nil (tp : List (Tag × ℚ)) (n : Nat) (htp : tp ≠ [])
    (hn : 1 ≤ n) : bestNSorted tp n ≠ [] := by
  unfold bestNSorted
  cases tp with
  | nil => exact absurd rfl htp
  | cons p rest =>
    simp only [List.foldl_cons]
    apply foldl_insert_ne_nil
    have h0 : searchIdx [] p.2 = 0 := rfl
    simp only [h0]
    rw [if_pos (show 0 < n from hn)]
    exact insertWithLimit_ne_nil [] n 0 _

theorem bestNLogSpace_ne_nil (log : ℚ → ℚ) (tp : List (Tag × ℚ)) (n : Nat)
    (htp : tp ≠ []) (hn : 1 ≤ n) : bestNLogSpace log tp n ≠ [] := by
  unfold bestNLogSpace
  simp only [ne_eq, List.map_eq_nil_iff]
  exact bestNSorted_ne_nil tp n htp hn

theorem suffixHandler_tagprobs_total (log : ℚ → ℚ) (cardinal : List Char → Bool)
    (sh : SuffixHandler) (w : List Char) (hw : w ≠ [])
    (hsh : suffixHandlerWF sh = true) :
    ∃ v, sh.TagProbs log cardinal w = some v ∧ v ≠ [] := by
  simp only [suffixHandlerWF, Bool.and_eq_true, Bool.not_eq_true',
    List.isEmpty_eq_false, decide_eq_true_eq] at hsh
  obtain ⟨⟨⟨⟨hu, hl⟩, hd⟩, hc⟩, hn⟩ := hsh
  cases w with
  | nil => exact absurd rfl hw
  | cons c rest =>
    have key : ∀ t : WordSuffixTree, t.root.tagFreqs ≠ [] →
        bestNLogSpace log (t.suffixTagProbs (c :: rest)) sh.maxTags ≠ [] := by
      intro t ht
      apply bestNLogSpace_ne_nil _ _ _ _ hn
      unfold WordSuffixTree.suffixTagProbs
      intro hcontra
      have hlen := suffixTagProbs_length t.theta t.unigramFreqs
        ((c :: rest).reverse.take t.maxLength) t.root
        (t.root.tagFreqs.map (fun p => (p.1, (0 : ℚ))))
      rw [hcontra] at hlen
      simp only [List.length_nil, List.length_map] at hlen
      exact ht (List.eq_nil_of_length_eq_zero hlen.symm)
    have main : ∀ t : WordSuffixTree,
        SuffixHandler.selectSuffixTree cardinal sh (c :: rest) = some t →
        t.root.tagFreqs ≠ [] →
        ∃ v, sh.TagProbs log cardinal (c :: rest) = some v ∧ v ≠ [] := by
      intro t hsel ht
      refine ⟨bestNLogSpace log (t.suffixTagProbs (c :: rest)) sh.maxTags, ?_, key t ht⟩
      unfold SuffixHandler.TagProbs
      rw [hsel, Option.map_some']
    by_cases h1 : c.isUpper
    · have hsel : SuffixHandler.selectSuffixTree cardinal sh (c :: rest) =
          some sh.upperTree := by
        simp only [SuffixHandler.selectSuffixTree]
        rw [if_pos h1]
      exact main sh.upperTree hsel hu
    · by_cases h2 : cardinal (c :: rest)
      · have hsel : SuffixHandler.selectSuffixTree cardinal sh (c :: rest) =
            some sh.cardinalTree := by
          simp only [SuffixHandler.selectSuffixTree]
          rw [if_neg h1, if_pos h2]
        exact main sh.cardinalTree hsel hc
      · by_cases h3 : (c :: rest).contains '-'
        · have hsel : SuffixHandler.selectSuffixTree cardinal sh (c :: rest) =
              some sh.dashTree := by
            simp only [SuffixHandler.selectSuffixTree]
            rw [if_neg h1, if_neg h2, if_pos h3]
          exact main sh.dashTree hsel hd
        · have hsel : SuffixHandler.selectSuffixTree cardinal sh (c :: rest) =
              some sh.lowerTree := by
            simp only [SuffixHandler.selectSuffixTree]
            rw [if_neg h1, if_neg h2, if_neg h3]
          exact main sh.lowerTree hsel hl

theorem lookupLoop_ne_nil (m : List (List Char × List (Tag × ℚ)))
    (hent : entriesNonEmpty m = true)
    (hroot : ∃ v, alookup ([] : List Char) m = some v ∧ v ≠ []) :
    ∀ rs, lookupLoop m rs ≠ [] := by
  have hmem : ∀ e ∈ m, e.2 ≠ [] := by
    simp only [entriesNonEmpty, List.all_eq_true, Bool.not_eq_true',
      List.isEmpty_eq_false] at hent
    exact fun e he => by simpa using hent e he
  have main : ∀ (k : Nat) (rs : List Char), rs.length ≤ k → lookupLoop m rs ≠ [] := by
    intro k
    induction k with
    | zero =>
      intro rs hlen
      have : rs = [] := List.eq_nil_of_length_eq_zero (Nat.le_zero.mp hlen)
      subst this
      obtain ⟨v, hv, hvne⟩ := hroot
      simp only [lookupLoop, hv, Option.getD_some]
      exact hvne
    | succ k ih =>
      intro rs hlen
      cases rs with
      | nil =>
        obtain ⟨v, hv, hvne⟩ := hroot
        simp only [lookupLoop, hv, Option.getD_some]
        exact hvne
      | cons c rest =>
        cases hfind : alookup (c :: rest) m with
        | some probs =>
          have heq : lookupLoop m (c :: rest) = probs := by
            simp only [lookupLoop, hfind]
          rw [heq]
          exact hmem _ (alookup_some_mem hfind)
        | none =>
          have heq : lookupLoop m (c :: rest) = lookupLoop m (c :: rest).dropLast := by
            simp only [lookupLoop, hfind]
          rw [heq]
          apply ih
          simp only [List.dropLast_cons_of_ne_nil, List.length_dropLast, List.length_cons] at *
          omega
  exact fun rs => main rs.length rs (le_refl _)

theorem lookupHandler_tagprobs_total (cardinal : List Char → Bool)
    (lh : LookupSuffixHandler) (w : List Char) (hw : w ≠ [])
    (hlh : lookupHandlerWF lh = true) :
    ∃ v, lh.TagProbs cardinal w = some v ∧ v ≠ [] := by
  simp only [lookupHandlerWF, Bool.and_eq_true] at hlh
  obtain ⟨⟨⟨hu, hl⟩, hd⟩, hc⟩ := hlh
  have key : ∀ m, lookupMapWF m = true → lookupLoop m (w.reverse.take lh.maxLength) ≠ [] := by
    intro m hm
    simp only [lookupMapWF, Bool.and_eq_true] at hm
    obtain ⟨hent, hroot⟩ := hm
    apply lookupLoop_ne_nil m hent
    cases hr : alookup ([] : List Char) m with
    | some v =>
      rw [hr] at hroot
      simp only [Bool.not_eq_true', List.isEmpty_eq_false] at hroot
      exact ⟨v, rfl, by simpa using hroot⟩
    | none => rw [hr] at hroot; simp at hroot
  cases w with
  | nil => exact absurd rfl hw
  | cons c rest =>
    have main : ∀ m, LookupSuffixHandler.selectMap cardinal lh (c :: rest) = some m →
        lookupMapWF m = true →
        ∃ v, lh.TagProbs cardinal (c :: rest) = some v ∧ v ≠ [] := by
      intro m hsel hm
      refine ⟨lookupLoop m ((c :: rest).reverse.take lh.maxLength), ?_, key m hm⟩
      unfold LookupSuffixHandler.TagProbs
      rw [hsel, Option.map_some']
    by_cases h1 : c.isUpper
    · have hsel : LookupSuffixHandler.selectMap cardinal lh (c :: rest) =
          some lh.upperProbs := by
        simp only [LookupSuffixHandler.selectMap]
        rw [if_pos h1]
      exact main lh.upperProbs hsel hu
    · by_cases h2 : cardinal (c :: rest)
      · have hsel : LookupSuffixHandler.selectMap cardinal lh (c :: rest) =
            some lh.cardinalProbs := by
          simp only [LookupSuffixHandler.selectMap]
          rw [if_neg h1, if_pos h2]
        exact main lh.cardinalProbs hsel hc
      · by_cases h3 : (c :: rest).contains '-'
        · have hsel : LookupSuffixHandler.selectMap cardinal lh (c :: rest) =
              some lh.dashProbs := by
            simp only [LookupSuffixHandler.selectMap]
            rw [if_neg h1, if_neg h2, if_pos h3]
          exact main lh.dashProbs hsel hd
        · have hsel : LookupSuffixHandler.selectMap cardinal lh (c :: rest) =
              some lh.lowerProbs := by
            simp only [LookupSuffixHandler.selectMap]
            rw [if_neg h1, if_neg h2, if_neg h3]
          exact main lh.lowerProbs hsel hl

theorem fallback_tagprobs_total (log : ℚ → ℚ) (cardinal : List Char → Bool)
    (fb : FallbackHandler) (w : List Char) (hw : w ≠ [])
    (hfb : fallbackWF fb = true) :
    ∃ v, fb.TagProbs log cardinal w = some v ∧ v ≠ [] := by
  cases fb with
  | suffix h => exact suffixHandler_tagprobs_total log cardinal h w hw hfb
  | lookupSuffix h => exact lookupHandler_tagprobs_total cardinal h w hw hfb

theorem lexicon_tagprobs_total (log : ℚ → ℚ) (cardinal : List Char → Bool)
    (l : Lexicon) (w : List Char) (hw : w ≠ []) (hl : lexiconWF l = true) :
    (∃ v, l.TagProbs log cardinal w = some v) ∧
    (l.TagProbs log cardinal w = some [] →
      l.fallback = none ∧ w ∉ akeys l.wordTagProbs) := by
  simp only [lexiconWF, Bool.and_eq_true] at hl
  obtain ⟨hent, hfb⟩ := hl
  have hmem : ∀ e ∈ l.wordTagProbs, e.2 ≠ [] := by
    simp only [entriesNonEmpty, List.all_eq_true, Bool.not_eq_true',
      List.isEmpty_eq_false] at hent
    exact fun e he => by simpa using hent e he
  cases w with
  | nil => exact absurd rfl hw
  | cons c rest =>
    cases hfind : alookup (c :: rest) l.wordTagProbs with
    | some probs =>
      have heq : l.TagProbs log cardinal (c :: rest) = some probs := by
        simp only [Lexicon.TagProbs, hfind]
      rw [heq]
      refine ⟨⟨probs, rfl⟩, fun hempty => ?_⟩
      have hpe : probs = [] := by simpa using hempty
      exact absurd hpe (hmem _ (alookup_some_mem hfind))
    | none =>
      have habs : (c :: rest) ∉ akeys l.wordTagProbs := (alookup_eq_none_iff _ _).mp hfind
      cases hlow : (if c.isUpper then alookup ((c :: rest).map Char.toLower) l.wordTagProbs
          else none) with
      | some probs =>
        have heq : l.TagProbs log cardinal (c :: rest) = some probs := by
          simp only [Lexicon.TagProbs, hfind, hlow]
        have hlmem : ∃ k, alookup k l.wordTagProbs = some probs := by
          by_cases hc : c.isUpper
          · rw [if_pos hc] at hlow; exact ⟨_, hlow⟩
          · rw [if_neg hc] at hlow; exact Option.noConfusion hlow
        obtain ⟨k, hk⟩ := hlmem
        rw [heq]
        refine ⟨⟨probs, rfl⟩, fun hempty => ?_⟩
        have hpe : probs = [] := by simpa using hempty
        exact absurd hpe (hmem _ (alookup_some_mem hk))
      | none =>
        cases hf : l.fallback with
        | some fb =>
          have heq : l.TagProbs log cardinal (c :: rest) =
              fb.TagProbs log cardinal (c :: rest) := by
            simp only [Lexicon.TagProbs, hfind, hlow, hf]
          rw [hf] at hfb
          obtain ⟨v, hv, hvne⟩ := fallback_tagprobs_total log cardinal fb (c :: rest)
            (by simp) hfb
          rw [heq, hv]
          exact ⟨⟨v, rfl⟩, fun hempty => absurd (by simpa using hempty) hvne⟩
        | none =>
          have heq : l.TagProbs log cardinal (c :: rest) = some [] := by
            simp only [Lexicon.TagProbs, hfind, hlow, hf]
          rw [heq]
          exact ⟨⟨[], rfl⟩, fun _ => ⟨rfl, habs⟩⟩

/-- C7 counterexample: on the empty input word the suffix estimator does
not return a mapping — `selectSuffixTree` indexes `runes[0]` and panics. -/
theorem c7_empty_word_fails :
    SuffixHandler.TagProbs (fun q => q) (fun _ => false) c7sh [] = none := rfl

/-- C7 (amended): for every non-empty input word, each emission
estimator's `TagProbs` (Lexicon, SubstLexicon, SuffixHandler,
LookupSuffixHandler) returns a mapping without failing, provided the
estimator is built with the construction invariants (non-empty stored
distributions, at least one known tag per suffix-tree root, a positive
maximum tag count, a stored empty-suffix entry, substitutions that do not
erase the word); the suffix estimators' mappings are never empty, and an
empty mapping is returned only by a Lexicon or SubstLexicon without a
fallback queried for a word absent from it.  On the empty word the
estimators fail (see the counterexample). -/
theorem c7_tagprobs_total_nonempty (log : ℚ → ℚ) (cardinal : List Char → Bool)
    (sh : SuffixHandler) (lh : LookupSuffixHandler) (l : Lexicon) (sl : SubstLexicon)
    (w : List Char) (hw : w ≠ [])
    (hsh : suffixHandlerWF sh = true) (hlh : lookupHandlerWF lh = true)
    (hl : lexiconWF l = true) (hsl : substLexiconWF sl = true)
    (hsub : sl.substitutions.foldl (fun u s => s u) w ≠ []) :
    (∃ v, sh.TagProbs log cardinal w = some v ∧ v ≠ []) ∧
    (∃ v, lh.TagProbs cardinal w = some v ∧ v ≠ []) ∧
    (∃ v, l.TagProbs log cardinal w = some v) ∧
    (l.TagProbs log cardinal w = some [] →
      l.fallback = none ∧ w ∉ akeys l.wordTagProbs) ∧
    (∃ v, sl.TagProbs log cardinal w = some v) ∧
    (sl.TagProbs log cardinal w = some [] →
      sl.fallback = none ∧ w ∉ akeys sl.lexicon.wordTagProbs) := by
  simp only [substLexiconWF, Bool.and_eq_true] at hsl
  obtain ⟨hsll, hslf⟩ := hsl
  refine ⟨suffixHandler_tagprobs_total log cardinal sh w hw hsh,
    lookupHandler_tagprobs_total cardinal lh w hw hlh,
    (lexicon_tagprobs_total log cardinal l w hw hl).1,
    (lexicon_tagprobs_total log cardinal l w hw hl).2, ?_⟩
  obtain ⟨hsome, hchar⟩ := lexicon_tagprobs_total log cardinal sl.lexicon w hw hsll
  obtain ⟨v, hv⟩ := hsome
  by_cases hvne : v.length ≠ 0
  · have heq : sl.TagProbs log cardinal w = some v := by
      simp only [SubstLexicon.TagProbs, hv, if_pos hvne]
    rw [heq]
    refine ⟨⟨v, rfl⟩, fun hempty => ?_⟩
    have hnil : v = [] := by simpa using hempty
    subst hnil
    simp at hvne
  · have hvnil : v = [] := List.eq_nil_of_length_eq_zero (by omega)
    subst hvnil
    have habs := hchar hv
    obtain ⟨hsome2, _⟩ := lexicon_tagprobs_total log cardinal sl.lexicon
      (sl.substitutions.foldl (fun u s => s u) w) hsub hsll
    obtain ⟨v2, hv2⟩ := hsome2
    by_cases hv2ne : v2.length ≠ 0
    · have heq : sl.TagProbs log cardinal w = some v2 := by
        simp only [SubstLexicon.TagProbs, hv, if_neg hvne, hv2, if_pos hv2ne]
      rw [heq]
      refine ⟨⟨v2, rfl⟩, fun hempty => ?_⟩
      have hnil : v2 = [] := by simpa using hempty
      subst hnil
      simp at hv2ne
    · cases hf : sl.fallback with
      | some fb =>
        have heq : sl.TagProbs log cardinal w = fb.TagProbs log cardinal w := by
          simp only [SubstLexicon.TagProbs, hv, if_neg hvne, hv2, if_neg hv2ne, hf]
        rw [hf] at hslf
        obtain ⟨v3, hv3, hv3ne⟩ := fallback_tagprobs_total log cardinal fb w hw hslf
        rw [heq, hv3]
        exact ⟨⟨v3, rfl⟩, fun hempty => absurd (by simpa using hempty) hv3ne⟩
      | none =>
        have hv2nil : v2 = [] := List.eq_nil_of_length_eq_zero (by omega)
        subst hv2nil
        have heq : sl.TagProbs log cardinal w = some [] := by
          simp only [SubstLexicon.TagProbs, hv, if_neg hvne, hv2, if_neg hv2ne, hf]
        rw [heq]
        exact ⟨⟨[], rfl⟩, fun _ => ⟨rfl, habs.2⟩⟩

/-- Witness for C7 at concrete estimators and the word "a". -/
theorem c7_tagprobs_total_nonempty_witness :
    ((['a'] : List Char) ≠ [] ∧ suffixHandlerWF c7sh = true ∧
      lookupHandlerWF c7lh = true ∧ lexiconWF c7lex = true ∧
      substLexiconWF c7sub = true ∧
      c7sub.substitutions.foldl (fun u s => s u) ['a'] ≠ []) ∧
    ((∃ v, c7sh.TagProbs (fun q => q) (fun _ => false) ['a'] = some v ∧ v ≠ []) ∧
     (∃ v, c7lh.TagProbs (fun _ => false) ['a'] = some v ∧ v ≠ []) ∧
     (∃ v, c7lex.TagProbs (fun q => q) (fun _ => false) ['a'] = some v) ∧
     (c7lex.TagProbs (fun q => q) (fun _ => false) ['a'] = some [] →
       c7lex.fallback = none ∧ (['a'] : List Char) ∉ akeys c7lex.wordTagProbs) ∧
     (∃ v, c7sub.TagProbs (fun q => q) (fun _ => false) ['a'] = some v) ∧
     (c7sub.TagProbs (fun q => q) (fun _ => false) ['a'] = some [] →
       c7sub.fallback = none ∧ (['a'] : List Char) ∉ akeys c7sub.lexicon.wordTagProbs)) :=
  ⟨⟨by decide, by decide, by decide, by decide, by decide, by decide⟩,
    c7_tagprobs_total_nonempty (fun q => q) (fun _ => false) c7sh c7lh c7lex c7sub ['a']
      (by decide) (by decide) (by decide) (by decide) (by decide) (by decide)⟩

/-! ## Claim C5 -/

theorem ne_append_cons (sfx : List Char) (c : Char) (s : List Char) :
    sfx ≠ sfx ++ c :: s := by
  intro h
  have := congrArg List.length h
  simp at this

theorem treeWF_mk (children : List (Char × TreeNode)) (tf : List (Tag × Int)) (f : Int) :
    treeWF (.mk children tf f) = true ↔
      (children.map Prod.fst).Nodup ∧ treeWFChildren children = true := by
  simp [treeWF, Bool.and_eq_true, decide_eq_true_eq]

theorem treeWFChildren_mem : ∀ (children : List (Char × TreeNode)),
    treeWFChildren children = true → ∀ p ∈ children, treeWF p.2 = true := by
  intro children
  induction children with
  | nil => intro _ p hp; simp at hp
  | cons q rest ih =>
    obtain ⟨r, cn⟩ := q
    intro h p hp
    simp only [treeWFChildren, Bool.and_eq_true] at h
    rcases List.mem_cons.mp hp with heq | hmem
    · subst heq; exact h.1
    · exact ih h.2 p hmem

theorem convertChildren_frame (log : ℚ → ℚ) (mt : Nat) (theta : ℚ)
    (uf : List (Unigram × Int)) :
    ∀ (children : List (Char × TreeNode)),
      (∀ p ∈ children, ∀ (sfx' : List Char) (tp' : List (Tag × ℚ))
        (probs' : List (List Char × List (Tag × ℚ))) (k' : List Char),
        (¬ ∃ r, k' = sfx' ++ r) →
        alookup k' (convertTreeRecursive log mt theta uf p.2 sfx' tp' probs') =
          alookup k' probs') →
      ∀ (sfx : List Char) (tp : List (Tag × ℚ))
        (probs : List (List Char × List (Tag × ℚ))) (k : List Char),
        (¬ ∃ c r, k = sfx ++ c :: r) →
        alookup k (convertChildren log mt theta uf children sfx tp probs) =
          alookup k probs := by
  intro children
  induction children with
  | nil => intro _ sfx tp probs k _; rfl
  | cons q rest ihc =>
    obtain ⟨r, cn⟩ := q
    intro hmem sfx tp probs k hk
    simp only [convertChildren]
    rw [ihc (fun p hp => hmem p (List.mem_cons_of_mem _ hp)) sfx tp _ k hk]
    apply hmem (r, cn) (List.mem_cons_self _ _) (sfx ++ [r]) tp probs k
    rintro ⟨r', hr'⟩
    exact hk ⟨r, r', by simpa [List.append_assoc] using hr'⟩

theorem convert_frame (log : ℚ → ℚ) (mt : Nat) (theta : ℚ)
    (uf : List (Unigram × Int)) :
    ∀ (N : Nat) (t : TreeNode), sizeOf t ≤ N →
      ∀ (sfx : List Char) (tp : List (Tag × ℚ))
        (probs : List (List Char × List (Tag × ℚ))) (k : List Char),
        (¬ ∃ r, k = sfx ++ r) →
        alookup k (convertTreeRecursive log mt theta uf t sfx tp probs) =
          alookup k probs := by
  intro N
  induction N with
  | zero =>
    intro t ht
    cases t with
    | mk children tf f => simp_arith at ht
  | succ N ih =>
    intro t ht sfx tp probs k hk
    cases t with
    | mk children tf f =>
      have hne : ¬ (sfx = k) := by
        intro h
        exact hk ⟨[], by simp [h]⟩
      simp only [convertTreeRecursive, alookup, if_neg hne]
      apply convertChildren_frame log mt theta uf children
      · intro p hp sfx' tp' probs' k' hk'
        have hsz : sizeOf p.2 ≤ N := by
          have h1 : sizeOf p < sizeOf children := List.sizeOf_lt_of_mem hp
          obtain ⟨r, cn⟩ := p
          simp_arith at h1 ht ⊢
          omega
        exact ih p.2 hsz sfx' tp' probs' k' hk'
      · rintro ⟨c, r, hr⟩
        exact hk ⟨c :: r, hr⟩

theorem convertChildren_lookup (log : ℚ → ℚ) (mt : Nat) (theta : ℚ)
    (uf : List (Unigram × Int)) :
    ∀ (children : List (Char × TreeNode)),
      (children.map Prod.fst).Nodup →
      (∀ p ∈ children, ∀ (sfx' : List Char) (tp' : List (Tag × ℚ))
        (probs' : List (List Char × List (Tag × ℚ))) (s : List Char),
        alookup (sfx' ++ s) (convertTreeRecursive log mt theta uf p.2 sfx' tp' probs') =
          (match pathEntry log mt theta uf p.2 tp' s with
           | some e => some e
           | none => alookup (sfx' ++ s) probs')) →
      ∀ (sfx : List Char) (tp : List (Tag × ℚ))
        (probs : List (List Char × List (Tag × ℚ))) (c : Char) (s : List Char),
        alookup (sfx ++ c :: s) (convertChildren log mt theta uf children sfx tp probs) =
          (match alookup c children with
           | some child =>
             match pathEntry log mt theta uf child tp s with
             | some e => some e
             | none => alookup (sfx ++ c :: s) probs
           | none => alookup (sfx ++ c :: s) probs) := by
  intro children
  induction children with
  | nil => intro _ _ sfx tp probs c s; rfl
  | cons q rest ihc =>
    obtain ⟨r, cn⟩ := q
    intro hnd hmem sfx tp probs c s
    have hndr : (rest.map Prod.fst).Nodup := by
      simpa using List.Nodup.of_cons hnd
    have hrnotin : r ∉ rest.map Prod.fst := by
      simp only [List.map_cons, List.nodup_cons] at hnd
      exact hnd.1
    have hframe : ∀ (k' : List Char), (¬ ∃ r', k' = (sfx ++ [r]) ++ r') →
        alookup k' (convertTreeRecursive log mt theta uf cn (sfx ++ [r]) tp probs) =
          alookup k' probs := by
      intro k' hk'
      exact convert_frame log mt theta uf (sizeOf cn) cn (le_refl _) (sfx ++ [r]) tp probs k' hk'
    simp only [convertChildren]
    rw [ihc hndr (fun p hp => hmem p (List.mem_cons_of_mem _ hp)) sfx tp _ c s]
    by_cases hrc : r = c
    · subst hrc
      have hcrest : alookup r rest = (none : Option TreeNode) := by
        rw [alookup_eq_none_iff]
        simpa [akeys] using hrnotin
      have hccons : alookup r ((r, cn) :: rest) = some cn := by
        simp [alookup]
      rw [hcrest, hccons]
      have hmain := hmem (r, cn) (List.mem_cons_self _ _) (sfx ++ [r]) tp probs s
      have hkey : (sfx ++ [r]) ++ s = sfx ++ r :: s := by simp
      rw [hkey] at hmain
      exact hmain
    · have hccons : alookup c ((r, cn) :: rest) = alookup c rest := by
        simp [alookup, hrc]
      rw [hccons]
      have hfr : alookup (sfx ++ c :: s)
          (convertTreeRecursive log mt theta uf cn (sfx ++ [r]) tp probs) =
          alookup (sfx ++ c :: s) probs := by
        apply hframe
        rintro ⟨r', hr'⟩
        rw [List.append_assoc] at hr'
        have := List.append_cancel_left hr'
        cases this
        exact hrc rfl
      cases hcr : alookup c rest with
      | some child =>
        cases hpe : pathEntry log mt theta uf child tp s with
        | some e => simp only [hpe]
        | none => simp only [hpe]; exact hfr
      | none => exact hfr

theorem convert_lookup (log : ℚ → ℚ) (mt : Nat) (theta : ℚ)
    (uf : List (Unigram × Int)) :
    ∀ (N : Nat) (t : TreeNode), sizeOf t ≤ N → treeWF t = true →
      ∀ (sfx : List Char) (tp : List (Tag × ℚ))
        (probs : List (List Char × List (Tag × ℚ))) (s : List Char),
        alookup (sfx ++ s) (convertTreeRecursive log mt theta uf t sfx tp probs) =
          (match pathEntry log mt theta uf t tp s with
           | some e => some e
           | none => alookup (sfx ++ s) probs) := by
  intro N
  induction N with
  | zero =>
    intro t ht
    cases t with
    | mk children tf f => simp_arith at ht
  | succ N ih =>
    intro t ht hwf sfx tp probs s
    cases t with
    | mk children tf f =>
      obtain ⟨hnd, hch⟩ := (treeWF_mk children tf f).mp hwf
      cases s with
      | nil =>
        simp only [convertTreeRecursive, pathEntry, List.append_nil, alookup,
          eq_self_iff_true, if_true]
      | cons c s' =>
        have hne : ¬ (sfx = sfx ++ c :: s') := ne_append_cons sfx c s'
        simp only [convertTreeRecursive, pathEntry, alookup, if_neg hne]
        rw [convertChildren_lookup log mt theta uf children hnd ?hmem sfx
          (nodeUpdate theta (.mk children tf f) tp) probs c s']
        case hmem =>
          intro p hp sfx' tp' probs' s''
          have hsz : sizeOf p.2 ≤ N := by
            have h1 : sizeOf p < sizeOf children := List.sizeOf_lt_of_mem hp
            obtain ⟨r, cn⟩ := p
            simp_arith at h1 ht ⊢
            omega
          exact ih p.2 hsz (treeWFChildren_mem children hch p hp) sfx' tp' probs' s''
        have hproj : (TreeNode.mk children tf f).children = children := rfl
        rw [hproj]
        cases hcc : alookup c children with
        | some child => rfl
        | none => rfl

theorem pathEntry_some_walk (log : ℚ → ℚ) (mt : Nat) (theta : ℚ)
    (uf : List (Unigram × Int)) :
    ∀ (rs : List Char) (t : TreeNode) (tp : List (Tag × ℚ)) (e : List (Tag × ℚ)),
    pathEntry log mt theta uf t tp rs = some e →
    e = bestNLogSpace log (t.suffixTagProbs theta uf rs tp) mt := by
  intro rs
  induction rs with
  | nil =>
    intro t tp e h
    simp only [pathEntry, Option.some.injEq] at h
    subst h
    rfl
  | cons c rest ih =>
    intro t tp e h
    cases hcc : alookup c t.children with
    | none => simp [pathEntry, hcc] at h
    | some child =>
      simp only [pathEntry, hcc] at h
      have hw : t.suffixTagProbs theta uf (c :: rest) tp =
          child.suffixTagProbs theta uf rest (nodeUpdate theta t tp) := by
        simp only [TreeNode.suffixTagProbs, hcc]
      rw [hw]
      exact ih child (nodeUpdate theta t tp) e h

theorem pathEntry_none_walk (log : ℚ → ℚ) (mt : Nat) (theta : ℚ)
    (uf : List (Unigram × Int)) :
    ∀ (rs : List Char) (t : TreeNode) (tp : List (Tag × ℚ)),
    pathEntry log mt theta uf t tp rs = none →
    t.suffixTagProbs theta uf rs tp = t.suffixTagProbs theta uf rs.dropLast tp := by
  intro rs
  induction rs with
  | nil => intro t tp h; simp [pathEntry] at h
  | cons c rest ih =>
    intro t tp h
    cases hcc : alookup c t.children with
    | none =>
      cases rest with
      | nil => simp only [TreeNode.suffixTagProbs, hcc, List.dropLast_single]
      | cons c2 rest2 =>
        have hdl : (c :: c2 :: rest2).dropLast = c :: (c2 :: rest2).dropLast := rfl
        rw [hdl]
        simp only [TreeNode.suffixTagProbs, hcc]
    | some child =>
      have hpe : pathEntry log mt theta uf child (nodeUpdate theta t tp) rest = none := by
        simpa [pathEntry, hcc] using h
      cases rest with
      | nil => simp [pathEntry] at hpe
      | cons c2 rest2 =>
        have hdl : (c :: c2 :: rest2).dropLast = c :: (c2 :: rest2).dropLast := rfl
        rw [hdl]
        simp only [TreeNode.suffixTagProbs, hcc]
        exact ih child (nodeUpdate theta t tp) hpe

theorem lookupLoop_convert (log : ℚ → ℚ) (mt : Nat) (theta : ℚ)
    (uf : List (Unigram × Int)) (t : TreeNode) (hwf : treeWF t = true)
    (tp : List (Tag × ℚ)) :
    ∀ (rs : List Char),
    lookupLoop (convertTreeRecursive log mt theta uf t [] tp []) rs =
      bestNLogSpace log (t.suffixTagProbs theta uf rs tp) mt := by
  have hkey : ∀ s, alookup s (convertTreeRecursive log mt theta uf t [] tp []) =
      (match pathEntry log mt theta uf t tp s with
       | some e => some e
       | none => none) := by
    intro s
    have h := convert_lookup log mt theta uf (sizeOf t) t (le_refl _) hwf [] tp [] s
    simp only [List.nil_append] at h
    rw [h]
    cases pathEntry log mt theta uf t tp s with
    | some e => rfl
    | none => rfl
  have main : ∀ (k : Nat) (rs : List Char), rs.length ≤ k →
      lookupLoop (convertTreeRecursive log mt theta uf t [] tp []) rs =
        bestNLogSpace log (t.suffixTagProbs theta uf rs tp) mt := by
    intro k
    induction k with
    | zero =>
      intro rs hlen
      have hnil : rs = [] := List.eq_nil_of_length_eq_zero (Nat.le_zero.mp hlen)
      subst hnil
      have h0 := hkey []
      simp only [pathEntry] at h0
      simp only [lookupLoop, h0, Option.getD_some]
      rfl
    | succ k ih =>
      intro rs hlen
      cases rs with
      | nil =>
        have h0 := hkey []
        simp only [pathEntry] at h0
        simp only [lookupLoop, h0, Option.getD_some]
        rfl
      | cons c s =>
        cases hpe : pathEntry log mt theta uf t tp (c :: s) with
        | some e =>
          have hl := hkey (c :: s)
          rw [hpe] at hl
          simp only [lookupLoop, hl]
          exact pathEntry_some_walk log mt theta uf (c :: s) t tp e hpe
        | none =>
          have hl := hkey (c :: s)
          rw [hpe] at hl
          have heq : lookupLoop (convertTreeRecursive log mt theta uf t [] tp []) (c :: s) =
              lookupLoop (convertTreeRecursive log mt theta uf t [] tp []) (c :: s).dropLast := by
            simp only [lookupLoop, hl]
          rw [heq, ih (c :: s).dropLast (by simp only [List.dropLast_cons_of_ne_nil,
            List.length_dropLast, List.length_cons] at *; omega)]
          rw [← pathEntry_none_walk log mt theta uf (c :: s) t tp hpe]
  exact fun rs => main rs.length rs (le_refl _)

theorem isInitSeg_length {p k : List Char} (h : isInitSeg p k) : p.length ≤ k.length := by
  unfold isInitSeg at h
  have := congrArg List.length h
  simp only [List.length_take] at this
  omega

theorem isInitSeg_dropLast_of_lt {q k : List Char} (h : isInitSeg q k)
    (hlt : q.length < k.length) : isInitSeg q k.dropLast := by
  unfold isInitSeg at *
  rw [List.dropLast_eq_take, List.take_take, min_eq_left (by omega)]
  exact h

theorem isInitSeg_of_dropLast {p k : List Char} (h : isInitSeg p k.dropLast) :
    isInitSeg p k := by
  have hle : p.length ≤ k.dropLast.length := isInitSeg_length h
  rw [List.length_dropLast] at hle
  unfold isInitSeg at *
  rw [List.dropLast_eq_take, List.take_take, min_eq_left (by omega)] at h
  exact h

theorem lookupLoop_longest (m : List (List Char × List (Tag × ℚ))) :
    ∀ (rs : List Char),
    ∃ p, isInitSeg p rs ∧ lookupLoop m rs = (alookup p m).getD [] ∧
      (p ≠ [] → (alookup p m).isSome = true) ∧
      (∀ q, isInitSeg q rs → q ≠ [] → p.length < q.length → alookup q m = none) := by
  have base : ∃ p, isInitSeg p ([] : List Char) ∧
      lookupLoop m [] = (alookup p m).getD [] ∧
      (p ≠ [] → (alookup p m).isSome = true) ∧
      (∀ q, isInitSeg q ([] : List Char) → q ≠ [] → p.length < q.length →
        alookup q m = none) := by
    refine ⟨[], by simp [isInitSeg], by simp only [lookupLoop], fun h => absurd rfl h, ?_⟩
    intro q hq hqne _
    have := isInitSeg_length hq
    simp only [List.length_nil, Nat.le_zero] at this
    exact absurd (List.eq_nil_of_length_eq_zero this) hqne
  have main : ∀ (k : Nat) (rs : List Char), rs.length ≤ k →
      ∃ p, isInitSeg p rs ∧ lookupLoop m rs = (alookup p m).getD [] ∧
        (p ≠ [] → (alookup p m).isSome = true) ∧
        (∀ q, isInitSeg q rs → q ≠ [] → p.length < q.length → alookup q m = none) := by
    intro k
    induction k with
    | zero =>
      intro rs hlen
      have hnil : rs = [] := List.eq_nil_of_length_eq_zero (Nat.le_zero.mp hlen)
      subst hnil
      exact base
    | succ k ih =>
      intro rs hlen
      cases rs with
      | nil => exact base
      | cons c s =>
        cases hfind : alookup (c :: s) m with
        | some v =>
          refine ⟨c :: s, by simp [isInitSeg], ?_, ?_, ?_⟩
          · simp only [lookupLoop, hfind, Option.getD_some]
          · intro _; simp [hfind]
          · intro q hq _ hql
            have := isInitSeg_length hq
            omega
        | none =>
          obtain ⟨p, hip, hres, hsome, hmax⟩ := ih (c :: s).dropLast
            (by simp only [List.dropLast_cons_of_ne_nil, List.length_dropLast,
              List.length_cons] at *; omega)
          refine ⟨p, isInitSeg_of_dropLast hip, ?_, hsome, ?_⟩
          · simp only [lookupLoop, hfind]
            exact hres
          · intro q hq hqne hql
            by_cases hqlt : q.length < (c :: s).length
            · exact hmax q (isInitSeg_dropLast_of_lt hq hqlt) hqne hql
            · have hqeq : q = c :: s := by
                have h1 := isInitSeg_length hq
                have h2 : q.length = (c :: s).length := by omega
                unfold isInitSeg at hq
                rw [h2, List.take_length] at hq
                exact hq.symm
              rw [hqeq]
              exact hfind
  exact fun rs => main rs.length rs (le_refl _)

/-- C5: for every non-empty word, the `LookupSuffixHandler` built from a
`SuffixHandler` by `NewLookupSuffixHandler` returns exactly the
`SuffixHandler`'s `TagProbs` mapping — in particular for every word whose
truncated reversed form occurs as a stored suffix string of the selected
word-shape class — and the returned mapping is the entry of the longest
stored initial segment of the truncated reversed word, falling back to the
empty suffix's entry.  Hypotheses: the four trees have distinct child
runes at every node and share one maximum suffix length, as
`NewSuffixHandler` guarantees. -/
theorem c5_lookup_matches_suffix_handler (log : ℚ → ℚ) (cardinal : List Char → Bool)
    (sh : SuffixHandler) (w : List Char) (hw : w ≠ [])
    (hwfU : treeWF sh.upperTree.root = true) (hwfL : treeWF sh.lowerTree.root = true)
    (hwfD : treeWF sh.dashTree.root = true) (hwfC : treeWF sh.cardinalTree.root = true)
    (hmlU : sh.upperTree.maxLength = sh.lowerTree.maxLength)
    (hmlD : sh.dashTree.maxLength = sh.lowerTree.maxLength)
    (hmlC : sh.cardinalTree.maxLength = sh.lowerTree.maxLength) :
    (NewLookupSuffixHandler log sh).TagProbs cardinal w = sh.TagProbs log cardinal w ∧
    (∀ m, (NewLookupSuffixHandler log sh).selectMap cardinal w = some m →
      ∃ p, isInitSeg p (w.reverse.take (NewLookupSuffixHandler log sh).maxLength) ∧
        (NewLookupSuffixHandler log sh).TagProbs cardinal w = some ((alookup p m).getD []) ∧
        (p ≠ [] → (alookup p m).isSome = true) ∧
        (∀ q, isInitSeg q (w.reverse.take (NewLookupSuffixHandler log sh).maxLength) →
          q ≠ [] → p.length < q.length → alookup q m = none)) := by
  cases w with
  | nil => exact absurd rfl hw
  | cons c rest =>
    have hml : (NewLookupSuffixHandler log sh).maxLength = sh.lowerTree.maxLength := rfl
    have keyTree : ∀ (t : WordSuffixTree), treeWF t.root = true →
        t.maxLength = sh.lowerTree.maxLength →
        lookupLoop (convertTree log t sh.maxTags)
          ((c :: rest).reverse.take (NewLookupSuffixHandler log sh).maxLength) =
        bestNLogSpace log (t.suffixTagProbs (c :: rest)) sh.maxTags := by
      intro t hwf hmlt
      unfold WordSuffixTree.suffixTagProbs
      unfold convertTree
      rw [hml, ← hmlt]
      exact lookupLoop_convert log sh.maxTags t.theta t.unigramFreqs t.root hwf
        (t.root.tagFreqs.map (fun p => (p.1, (0 : ℚ))))
        ((c :: rest).reverse.take t.maxLength)
    have corr : ∃ (t : WordSuffixTree) (m : List (List Char × List (Tag × ℚ))),
        SuffixHandler.selectSuffixTree cardinal sh (c :: rest) = some t ∧
        LookupSuffixHandler.selectMap cardinal (NewLookupSuffixHandler log sh) (c :: rest) =
          some m ∧
        m = convertTree log t sh.maxTags ∧ treeWF t.root = true ∧
        t.maxLength = sh.lowerTree.maxLength := by
      by_cases h1 : c.isUpper
      · refine ⟨sh.upperTree, convertTree log sh.upperTree sh.maxTags, ?_, ?_, rfl, hwfU, hmlU⟩
        · simp only [SuffixHandler.selectSuffixTree]; rw [if_pos h1]
        · simp only [LookupSuffixHandler.selectMap]; rw [if_pos h1]; rfl
      · by_cases h2 : cardinal (c :: rest)
        · refine ⟨sh.cardinalTree, convertTree log sh.cardinalTree sh.maxTags, ?_, ?_, rfl,
            hwfC, hmlC⟩
          · simp only [SuffixHandler.selectSuffixTree]; rw [if_neg h1, if_pos h2]
          · simp only [LookupSuffixHandler.selectMap]; rw [if_neg h1, if_pos h2]; rfl
        · by_cases h3 : (c :: rest).contains '-'
          · refine ⟨sh.dashTree, convertTree log sh.dashTree sh.maxTags, ?_, ?_, rfl,
              hwfD, hmlD⟩
            · simp only [SuffixHandler.selectSuffixTree]; rw [if_neg h1, if_neg h2, if_pos h3]
            · simp only [LookupSuffixHandler.selectMap]; rw [if_neg h1, if_neg h2, if_pos h3]
              rfl
          · refine ⟨sh.lowerTree, convertTree log sh.lowerTree sh.maxTags, ?_, ?_, rfl,
              hwfL, rfl⟩
            · simp only [SuffixHandler.selectSuffixTree]; rw [if_neg h1, if_neg h2, if_neg h3]
            · simp only [LookupSuffixHandler.selectMap]; rw [if_neg h1, if_neg h2, if_neg h3]
              rfl
    obtain ⟨t, m, hselT, hselM, hmconv, hwft, hmlt⟩ := corr
    have heqL : (NewLookupSuffixHandler log sh).TagProbs cardinal (c :: rest) =
        some (lookupLoop m
          ((c :: rest).reverse.take (NewLookupSuffixHandler log sh).maxLength)) := by
      unfold LookupSuffixHandler.TagProbs
      rw [hselM, Option.map_some']
    have heqS : sh.TagProbs log cardinal (c :: rest) =
        some (bestNLogSpace log (t.suffixTagProbs (c :: rest)) sh.maxTags) := by
      unfold SuffixHandler.TagProbs
      rw [hselT, Option.map_some']
    constructor
    · rw [heqL, heqS, hmconv]
      rw [keyTree t hwft hmlt]
    · intro m' hm'
      rw [hselM] at hm'
      have hmm : m' = m := by simpa using hm'.symm
      rw [hmm]
      obtain ⟨p, hip, hres, hsome, hmax⟩ := lookupLoop_longest m
        ((c :: rest).reverse.take (NewLookupSuffixHandler log sh).maxLength)
      exact ⟨p, hip, by rw [heqL, hres], hsome, hmax⟩

/-- Witness for C5 at a concrete suffix handler and the word "a". -/
theorem c5_lookup_matches_suffix_handler_witness :
    ((['a'] : List Char) ≠ [] ∧ treeWF c5sh.upperTree.root = true ∧
      treeWF c5sh.lowerTree.root = true ∧ treeWF c5sh.dashTree.root = true ∧
      treeWF c5sh.cardinalTree.root = true ∧
      c5sh.upperTree.maxLength = c5sh.lowerTree.maxLength ∧
      c5sh.dashTree.maxLength = c5sh.lowerTree.maxLength ∧
      c5sh.cardinalTree.maxLength = c5sh.lowerTree.maxLength) ∧
    ((NewLookupSuffixHandler (fun q => q) c5sh).TagProbs (fun _ => false) ['a'] =
        c5sh.TagProbs (fun q => q) (fun _ => false) ['a'] ∧
      (∀ m, (NewLookupSuffixHandler (fun q => q) c5sh).selectMap (fun _ => false) ['a'] =
          some m →
        ∃ p, isInitSeg p
            ((['a'] : List Char).reverse.take
              (NewLookupSuffixHandler (fun q => q) c5sh).maxLength) ∧
          (NewLookupSuffixHandler (fun q => q) c5sh).TagProbs (fun _ => false) ['a'] =
            some ((alookup p m).getD []) ∧
          (p ≠ [] → (alookup p m).isSome = true) ∧
          (∀ q, isInitSeg q
              ((['a'] : List Char).reverse.take
                (NewLookupSuffixHandler (fun q => q) c5sh).maxLength) →
            q ≠ [] → p.length < q.length → alookup q m = none))) :=
  ⟨⟨by decide, by decide, by decide, by decide, by decide, by decide, by decide, by decide⟩,
    c5_lookup_matches_suffix_handler (fun q => q) (fun _ => false) c5sh ['a']
      (by decide) (by decide) (by decide) (by decide) (by decide)
      (by decide) (by decide) (by decide)⟩

/-! ## Claim C1 -/

/-- C1 counterexample: with `beamFactor = 1` (stored `logBeam = log 1 = 0`)
the beam threshold equals the previous position's best score, so the
backpointer through tag 0 (score −1, strictly below the best 0) is pruned;
the pruned run returns score −10 and tag-code sequence `[3, 3, 1, 4]`
while the exhaustive unpruned Viterbi computation returns −1 and
`[3, 3, 0, 4]` on the same model and sentence. -/
theorem c1_beam_one_differs_from_exhaustive :
    decodeScore (viterbi c1tp c1wh 0 tS [['w']]) = some (-10) ∧
    decodeScore (viterbiFull c1tp c1wh tS [['w']]) = some (-1) ∧
    decodeSeq (viterbi c1tp c1wh 0 tS [['w']]) = some [3, 3, 1, 4] ∧
    decodeSeq (viterbiFull c1tp c1wh tS [['w']]) = some [3, 3, 0, 4] := by
  have h1 : c1wh endTokenChars = [(tE, (0 : ℚ))] := rfl
  have h2 : c1wh ['w'] = [(tA, (0 : ℚ)), (tB, (0 : ℚ))] := rfl
  norm_num [decodeScore, decodeSeq, viterbi, viterbiFull, viterbiLoop, viterbiLoopFull,
    stepColumn, stepColumnFull, bestOver, bestOverFull, columnBest, OLT,
    tagAt, h1, h2, alookup, c1tp, tA, tB, tS, tE,
    highestProbabilitySequence, bestLast, traceback, List.enum, List.enumFrom,
    List.cons_ne_nil, ne_eq]

theorem OLE_refl (a : Option ℚ) : OLE a a := by
  cases a <;> simp [OLE]

theorem OLE_trans {a b c : Option ℚ} (h1 : OLE a b) (h2 : OLE b c) : OLE a c := by
  cases a with
  | none => trivial
  | some av =>
    cases b with
    | none => exact absurd h1 (by simp [OLE])
    | some bv =>
      cases c with
      | none => exact absurd h2 (by simp [OLE])
      | some cv =>
        simp only [OLE] at *
        exact le_trans h1 h2

theorem OLE_of_OLT {a b : Option ℚ} (h : OLT a b) : OLE a b := by
  cases a with
  | none => trivial
  | some av =>
    cases b with
    | none => exact absurd h (by simp [OLT])
    | some bv =>
      simp only [OLT] at h
      simp only [OLE]
      exact le_of_lt h

theorem OLE_of_not_OLT {a b : Option ℚ} (h : ¬ OLT a b) : OLE b a := by
  cases b with
  | none => trivial
  | some bv =>
    cases a with
    | none => exact absurd trivial (by simpa [OLT] using h)
    | some av =>
      simp only [OLT] at h
      simp only [OLE]
      exact le_of_not_lt h

theorem OLE_map_add {a b : Option ℚ} (c : ℚ) (h : OLE a b) :
    OLE (a.map (fun q => c + q)) (b.map (fun q => c + q)) := by
  cases a with
  | none => trivial
  | some av =>
    cases b with
    | none => exact absurd h (by simp [OLE])
    | some bv =>
      simp only [OLE, Option.map_some'] at *
      exact add_le_add_left h c

theorem tagAt_eq_of_colLE {c1 c2 : Column} (h : colLE c1 c2) :
    ∀ i, tagAt c1 i = tagAt c2 i := by
  induction h with
  | nil => intro i; rfl
  | cons hst _ ih =>
    intro i
    cases i with
    | zero => exact hst.1
    | succ i => exact ih i

theorem foldBest_le (tp : Trigram → ℚ) (pp1 pp2 : Column)
    (htag : ∀ i, tagAt pp1 i = tagAt pp2 i) (t2 t3 : Tag) (e : ℚ) (beam : Option ℚ) :
    ∀ {b1 b2 : List (Nat × BP)},
      List.Forall₂ (fun p q => p.1 = q.1 ∧ OLE p.2.prob q.2.prob) b1 b2 →
      ∀ (a1 a2 : BP), OLE a1.prob a2.prob →
      OLE (b1.foldl
            (fun acc p =>
              if OLT p.2.prob beam then acc
              else
                let prob := p.2.prob.map (fun q => tp ⟨tagAt pp1 p.1, t2, t3⟩ + e + q)
                if OLT acc.prob prob then ⟨some p.1, prob⟩ else acc) a1).prob
          (b2.foldl
            (fun acc p =>
              let prob := p.2.prob.map (fun q => tp ⟨tagAt pp2 p.1, t2, t3⟩ + e + q)
              if OLT acc.prob prob then ⟨some p.1, prob⟩ else acc) a2).prob := by
  intro b1 b2 hb
  induction hb with
  | nil => intro a1 a2 ha; exact ha
  | cons hpq htail ih =>
    intro a1 a2 ha
    obtain ⟨hkey, hprob⟩ := hpq
    simp only [List.foldl_cons]
    apply ih
    next p q _ _ =>
    have hconst : tp ⟨tagAt pp1 p.1, t2, t3⟩ = tp ⟨tagAt pp2 q.1, t2, t3⟩ := by
      rw [htag p.1, hkey]
    set prob1 := p.2.prob.map (fun r => tp ⟨tagAt pp1 p.1, t2, t3⟩ + e + r) with hp1
    set prob2 := q.2.prob.map (fun r => tp ⟨tagAt pp2 q.1, t2, t3⟩ + e + r) with hp2
    have h12 : OLE prob1 prob2 := by
      rw [hp1, hp2, hconst]
      have : ∀ x : Option ℚ, ∀ y, OLE x y →
          OLE (x.map (fun r => tp ⟨tagAt pp2 q.1, t2, t3⟩ + e + r))
            (y.map (fun r => tp ⟨tagAt pp2 q.1, t2, t3⟩ + e + r)) := by
        intro x y hxy
        have := OLE_map_add (tp ⟨tagAt pp2 q.1, t2, t3⟩ + e) hxy
        simpa [add_assoc] using this
      exact this _ _ hprob
    have hstep2a : OLE a2.prob (if OLT a2.prob prob2 then (⟨some q.1, prob2⟩ : BP) else a2).prob := by
      by_cases hlt : OLT a2.prob prob2
      · rw [if_pos hlt]; exact OLE_of_OLT hlt
      · rw [if_neg hlt]; exact OLE_refl _
    have hstep2b : OLE prob2 (if OLT a2.prob prob2 then (⟨some q.1, prob2⟩ : BP) else a2).prob := by
      by_cases hlt : OLT a2.prob prob2
      · rw [if_pos hlt]; exact OLE_refl _
      · rw [if_neg hlt]; exact OLE_of_not_OLT hlt
    by_cases hskip : OLT p.2.prob beam
    · rw [if_pos hskip]
      exact OLE_trans ha hstep2a
    · rw [if_neg hskip]
      show OLE (if OLT a1.prob prob1 then (⟨some p.1, prob1⟩ : BP) else a1).prob
        (if OLT a2.prob prob2 then (⟨some q.1, prob2⟩ : BP) else a2).prob
      by_cases hlt1 : OLT a1.prob prob1
      · rw [if_pos hlt1]
        exact OLE_trans h12 hstep2b
      · rw [if_neg hlt1]
        exact OLE_trans ha hstep2a

theorem forall₂_enumFrom {R : VitState → VitState → Prop} :
    ∀ {l1 l2 : Column}, List.Forall₂ R l1 l2 → ∀ n,
      List.Forall₂ (fun a b => a.1 = b.1 ∧ R a.2 b.2) (l1.enumFrom n) (l2.enumFrom n) := by
  intro l1 l2 h
  induction h with
  | nil => intro n; exact List.Forall₂.nil
  | cons hst _ ih =>
    intro n
    exact List.Forall₂.cons ⟨rfl, hst⟩ (ih (n + 1))

theorem forall₂_map_map {α β γ δ : Type _} {R : α → β → Prop} {S : γ → δ → Prop}
    (g1 : α → γ) (g2 : β → δ) :
    ∀ {l1 : List α} {l2 : List β}, List.Forall₂ R l1 l2 →
      (∀ a b, R a b → S (g1 a) (g2 b)) → List.Forall₂ S (l1.map g1) (l2.map g2) := by
  intro l1 l2 h hab
  induction h with
  | nil => exact List.Forall₂.nil
  | cons hxy _ ih => exact List.Forall₂.cons (hab _ _ hxy) ih

theorem stepColumn_le (tp : Trigram → ℚ) {pp1 pp2 prev1 prev2 : Column}
    (hpp : colLE pp1 pp2) (hprev : colLE prev1 prev2) (beam : Option ℚ)
    (tagProbs : List (Tag × ℚ)) :
    colLE (stepColumn tp pp1 prev1 beam tagProbs)
      (stepColumnFull tp pp2 prev2 tagProbs) := by
  have htag := tagAt_eq_of_colLE hpp
  have henum := forall₂_enumFrom hprev 0
  unfold stepColumn stepColumnFull colLE
  induction tagProbs with
  | nil => exact List.Forall₂.nil
  | cons tpb rest ih =>
    refine List.Forall₂.cons ⟨rfl, ?_⟩ ih
    show List.Forall₂ _
      ((List.enumFrom 0 prev1).map _) ((List.enumFrom 0 prev2).map _)
    refine forall₂_map_map _ _ henum ?_
    intro a b hab
    obtain ⟨hkey, htg, hbps⟩ := hab
    refine ⟨hkey, ?_⟩
    show OLE (bestOver tp pp1 a.2.tag tpb.1 tpb.2 beam a.2.bps).prob
      (bestOverFull tp pp2 b.2.tag tpb.1 tpb.2 b.2.bps).prob
    unfold bestOver bestOverFull
    rw [htg]
    exact foldBest_le tp pp1 pp2 htag b.2.tag tpb.1 tpb.2 beam hbps ⟨none, none⟩ ⟨none, none⟩
      trivial

theorem colsLE_getD {cols1 cols2 : List Column} (h : colsLE cols1 cols2) (i : Nat) :
    colLE (cols1.getD i []) (cols2.getD i []) := by
  induction h generalizing i with
  | nil => exact List.Forall₂.nil
  | cons hc _ ih =>
    cases i with
    | zero => exact hc
    | succ i => exact ih i

theorem viterbiLoop_le (tp : Trigram → ℚ) (wh : List Char → List (Tag × ℚ))
    (logBeam : ℚ) :
    ∀ (toks : List (List Char)) (cols1 cols2 : List Column) (beam : Option ℚ),
      colsLE cols1 cols2 →
      (viterbiLoop tp wh logBeam toks cols1 beam = none ∧
        viterbiLoopFull tp wh toks cols2 = none) ∨
      (∃ r1 r2, viterbiLoop tp wh logBeam toks cols1 beam = some r1 ∧
        viterbiLoopFull tp wh toks cols2 = some r2 ∧ colsLE r1 r2) := by
  intro toks
  induction toks with
  | nil =>
    intro cols1 cols2 beam h
    exact Or.inr ⟨cols1, cols2, rfl, rfl, h⟩
  | cons tok rest ih =>
    intro cols1 cols2 beam h
    by_cases hemp : wh tok = []
    · left
      constructor
      · simp [viterbiLoop, hemp]
      · simp [viterbiLoopFull, hemp]
    · have hstep : colLE (stepColumn tp (cols1.getD 1 []) (cols1.getD 0 []) beam (wh tok))
          (stepColumnFull tp (cols2.getD 1 []) (cols2.getD 0 []) (wh tok)) :=
        stepColumn_le tp (colsLE_getD h 1) (colsLE_getD h 0) beam (wh tok)
      have hnext : colsLE
          (stepColumn tp (cols1.getD 1 []) (cols1.getD 0 []) beam (wh tok) :: cols1)
          (stepColumnFull tp (cols2.getD 1 []) (cols2.getD 0 []) (wh tok) :: cols2) :=
        List.Forall₂.cons hstep h
      have hrec := ih _ _
        ((columnBest (stepColumn tp (cols1.getD 1 []) (cols1.getD 0 [])
          beam (wh tok))).map (fun b => b - logBeam)) hnext
      rcases hrec with ⟨h1, h2⟩ | ⟨r1, r2, h1, h2, h3⟩
      · left
        constructor
        · simp only [viterbiLoop, hemp, if_neg hemp]
          exact h1
        · simp only [viterbiLoopFull, hemp, if_neg hemp]
          exact h2
      · right
        refine ⟨r1, r2, ?_, ?_, h3⟩
        · simp only [viterbiLoop, hemp, if_neg hemp]
          exact h1
        · simp only [viterbiLoopFull, hemp, if_neg hemp]
          exact h2

theorem bestLastFold_le :
    ∀ {b1 b2 : List (Nat × BP)},
      List.Forall₂ (fun p q => p.1 = q.1 ∧ OLE p.2.prob q.2.prob) b1 b2 →
      ∀ (st1 st2 : VitState) (a1 a2 : Option (VitState × Nat) × Option ℚ), OLE a1.2 a2.2 →
      OLE (b1.foldl (fun acc p =>
            if OLT acc.2 p.2.prob then (some (st1, p.1), p.2.prob) else acc) a1).2
          (b2.foldl (fun acc p =>
            if OLT acc.2 p.2.prob then (some (st2, p.1), p.2.prob) else acc) a2).2 := by
  intro b1 b2 hb
  induction hb with
  | nil => intro _ _ a1 a2 ha; exact ha
  | cons hpq htail ih =>
    intro st1 st2 a1 a2 ha
    simp only [List.foldl_cons]
    apply ih st1 st2
    next p q _ _ =>
    obtain ⟨_, hprob⟩ := hpq
    have hstep2a : OLE a2.2
        (if OLT a2.2 q.2.prob then ((some (st2, q.1), q.2.prob) :
          Option (VitState × Nat) × Option ℚ) else a2).2 := by
      by_cases hlt : OLT a2.2 q.2.prob
      · rw [if_pos hlt]; exact OLE_of_OLT hlt
      · rw [if_neg hlt]; exact OLE_refl _
    have hstep2b : OLE q.2.prob
        (if OLT a2.2 q.2.prob then ((some (st2, q.1), q.2.prob) :
          Option (VitState × Nat) × Option ℚ) else a2).2 := by
      by_cases hlt : OLT a2.2 q.2.prob
      · rw [if_pos hlt]; exact OLE_refl _
      · rw [if_neg hlt]; exact OLE_of_not_OLT hlt
    by_cases hlt1 : OLT a1.2 p.2.prob
    · rw [if_pos hlt1]
      exact OLE_trans hprob hstep2b
    · rw [if_neg hlt1]
      exact OLE_trans ha hstep2a

theorem bestLast_le {l1 l2 : Column} (h : colLE l1 l2) :
    OLE (bestLast l1).2 (bestLast l2).2 := by
  unfold bestLast
  suffices hgen : ∀ (a1 a2 : Option (VitState × Nat) × Option ℚ), OLE a1.2 a2.2 →
      OLE (l1.foldl (fun acc st => st.bps.foldl (fun acc p =>
        if OLT acc.2 p.2.prob then (some (st, p.1), p.2.prob) else acc) acc) a1).2
        (l2.foldl (fun acc st => st.bps.foldl (fun acc p =>
          if OLT acc.2 p.2.prob then (some (st, p.1), p.2.prob) else acc) acc) a2).2 by
    exact hgen (none, none) (none, none) trivial
  induction h with
  | nil => intro a1 a2 ha; exact ha
  | cons hst htail ih =>
    intro a1 a2 ha
    simp only [List.foldl_cons]
    apply ih
    exact bestLastFold_le hst.2 _ _ a1 a2 ha

theorem bestLast_fst_none_iff (l : Column) :
    ((bestLast l).1 = none ↔ (bestLast l).2 = none) := by
  unfold bestLast
  suffices hgen : ∀ (a : Option (VitState × Nat) × Option ℚ), (a.1 = none ↔ a.2 = none) →
      ((l.foldl (fun acc st => st.bps.foldl (fun acc p =>
        if OLT acc.2 p.2.prob then (some (st, p.1), p.2.prob) else acc) acc) a).1 = none ↔
      (l.foldl (fun acc st => st.bps.foldl (fun acc p =>
        if OLT acc.2 p.2.prob then (some (st, p.1), p.2.prob) else acc) acc) a).2 = none) by
    exact hgen (none, none) (by simp)
  induction l with
  | nil => intro a ha; exact ha
  | cons st rest ih =>
    intro a ha
    simp only [List.foldl_cons]
    apply ih
    clear ih
    induction st.bps generalizing a with
    | nil => exact ha
    | cons p ps ihp =>
      simp only [List.foldl_cons]
      apply ihp
      by_cases hlt : OLT a.2 p.2.prob
      · rw [if_pos hlt]
        constructor
        · intro h; exact absurd h (by simp)
        · intro h
          have h' : p.2.prob = none := h
          rw [h'] at hlt
          exact absurd hlt (by simp [OLT])
      · rw [if_neg hlt]; exact ha

theorem decodeScore_eq_bestLast (last : Column) (rest : List Column) :
    decodeScore (some (last :: rest)) = (bestLast last).2 := by
  cases hbl : bestLast last with
  | mk fst snd =>
    cases fst with
    | none =>
      have h2 : snd = none := by
        have h3 := (bestLast_fst_none_iff last).mp (by rw [hbl])
        rw [hbl] at h3
        exact h3
      simp only [decodeScore, highestProbabilitySequence, hbl]
      exact h2.symm
    | some tj =>
      simp only [decodeScore, highestProbabilitySequence, hbl]

theorem decodeScore_le {r1 r2 : List Column} (h : colsLE r1 r2) :
    OLE (decodeScore (some r1)) (decodeScore (some r2)) := by
  cases h with
  | nil => exact OLE_refl _
  | cons hc htail =>
    rw [decodeScore_eq_bestLast, decodeScore_eq_bestLast]
    exact bestLast_le hc

/-- C1 (amended): `beamFactor = 1` does not disable pruning — the beam
threshold becomes the previous position's best score and every backpointer
strictly below it is skipped, so the returned sequence and score can
differ from an exhaustive unpruned Viterbi computation (see the
counterexample) — but for every model, sentence, and beam factor the score
returned by the pruned search never exceeds the exhaustive Viterbi score. -/
theorem c1_pruned_score_le_exhaustive (tp : Trigram → ℚ)
    (wh : List Char → List (Tag × ℚ)) (logBeam : ℚ) (startTag : Tag)
    (sentence : List (List Char)) :
    OLE (decodeScore (viterbi tp wh logBeam startTag sentence))
      (decodeScore (viterbiFull tp wh startTag sentence)) := by
  have hbase : colsLE [[⟨startTag, [(0, ⟨none, some 0⟩)]⟩], [⟨startTag, []⟩]]
      [[⟨startTag, [(0, ⟨none, some 0⟩)]⟩], [⟨startTag, []⟩]] := by
    refine List.Forall₂.cons ?_ (List.Forall₂.cons ?_ List.Forall₂.nil)
    · exact List.Forall₂.cons ⟨rfl, List.Forall₂.cons ⟨rfl, OLE_refl _⟩ List.Forall₂.nil⟩
        List.Forall₂.nil
    · exact List.Forall₂.cons ⟨rfl, List.Forall₂.nil⟩ List.Forall₂.nil
  have h := viterbiLoop_le tp wh logBeam (sentence ++ [endTokenChars])
    [[⟨startTag, [(0, ⟨none, some 0⟩)]⟩], [⟨startTag, []⟩]]
    [[⟨startTag, [(0, ⟨none, some 0⟩)]⟩], [⟨startTag, []⟩]] (some 0) hbase
  unfold viterbi viterbiFull
  rcases h with ⟨h1, h2⟩ | ⟨r1, r2, h1, h2, h3⟩
  · rw [h1, h2]
    exact trivial
  · rw [h1, h2]
    exact decodeScore_le h3

/-! ## Claim C8 -/

theorem alookup_of_mem_nodup {α β : Type} [DecidableEq α] {k : α} {v : β}
    {l : List (α × β)} (hm : (k, v) ∈ l) (hnd : (l.map Prod.fst).Nodup) :
    alookup k l = some v := by
  induction l with
  | nil => simp at hm
  | cons p rest ih =>
    obtain ⟨k', v'⟩ := p
    simp only [List.map_cons, List.nodup_cons] at hnd
    rcases List.mem_cons.mp hm with heq | hmem
    · injection heq with h1 h2
      subst h1
      subst h2
      simp [alookup]
    · have hk : k' ≠ k := by
        intro he
        subst he
        exact hnd.1 (by simpa using List.mem_map_of_mem Prod.fst hmem)
      simp only [alookup, if_neg hk]
      exact ih hmem hnd.2

theorem mem_enumFrom_getD {α : Type} (d : α) :
    ∀ (l : List α) (n : Nat) (p : Nat × α), p ∈ l.enumFrom n →
      n ≤ p.1 ∧ p.1 - n < l.length ∧ l.getD (p.1 - n) d = p.2 := by
  intro l
  induction l with
  | nil => intro n p hp; simp [List.enumFrom] at hp
  | cons x xs ih =>
    intro n p hp
    rw [show List.enumFrom n (x :: xs) = (n, x) :: List.enumFrom (n + 1) xs from rfl] at hp
    rcases List.mem_cons.mp hp with heq | hmem
    · subst heq
      refine ⟨le_refl n, by simp, by simp⟩
    · obtain ⟨h1, h2, h3⟩ := ih (n + 1) p hmem
      refine ⟨by omega, by simp only [List.length_cons]; omega, ?_⟩
      have he : p.1 - n = (p.1 - (n + 1)) + 1 := by omega
      rw [he, List.getD_cons_succ]
      exact h3

theorem mem_enum_getD {α : Type} (d : α) (l : List α) (p : Nat × α)
    (hp : p ∈ l.enum) : p.1 < l.length ∧ l.getD p.1 d = p.2 := by
  obtain ⟨_, h2, h3⟩ := mem_enumFrom_getD d l 0 p hp
  exact ⟨by simpa using h2, by simpa using h3⟩

theorem foldBest_state_spec (tprob : Trigram → ℚ) (pp : Column) (t2 t3 : Tag)
    (e : ℚ) (beam : Option ℚ) :
    ∀ (l bps : List (Nat × BP)), (∀ x ∈ l, x ∈ bps) → ∀ (a : BP),
      (a.prob ≠ none → ∃ p, p ∈ bps ∧ a.state = some p.1 ∧ p.2.prob ≠ none) →
      ((l.foldl (fun acc p =>
          if OLT p.2.prob beam then acc
          else
            let prob := p.2.prob.map (fun q => tprob ⟨tagAt pp p.1, t2, t3⟩ + e + q)
            if OLT acc.prob prob then ⟨some p.1, prob⟩ else acc) a).prob ≠ none →
        ∃ p, p ∈ bps ∧
          (l.foldl (fun acc p =>
            if OLT p.2.prob beam then acc
            else
              let prob := p.2.prob.map (fun q => tprob ⟨tagAt pp p.1, t2, t3⟩ + e + q)
              if OLT acc.prob prob then ⟨some p.1, prob⟩ else acc) a).state = some p.1 ∧
          p.2.prob ≠ none) := by
  intro l
  induction l with
  | nil => intro bps _ a ha; exact ha
  | cons x xs ih =>
    intro bps hsub a ha
    simp only [List.foldl_cons]
    have hstep : ((if OLT x.2.prob beam then a
        else
          if OLT a.prob (x.2.prob.map (fun q => tprob ⟨tagAt pp x.1, t2, t3⟩ + e + q)) then
            (⟨some x.1, x.2.prob.map (fun q => tprob ⟨tagAt pp x.1, t2, t3⟩ + e + q)⟩ : BP)
          else a) : BP).prob ≠ none →
        ∃ p, p ∈ bps ∧
          ((if OLT x.2.prob beam then a
            else
              if OLT a.prob (x.2.prob.map (fun q => tprob ⟨tagAt pp x.1, t2, t3⟩ + e + q)) then
                (⟨some x.1, x.2.prob.map (fun q => tprob ⟨tagAt pp x.1, t2, t3⟩ + e + q)⟩ : BP)
              else a) : BP).state = some p.1 ∧ p.2.prob ≠ none := by
      by_cases hskip : OLT x.2.prob beam
      · simp only [if_pos hskip]
        exact ha
      · simp only [if_neg hskip]
        by_cases hlt : OLT a.prob
            (x.2.prob.map (fun q => tprob ⟨tagAt pp x.1, t2, t3⟩ + e + q))
        · simp only [if_pos hlt]
          intro _
          refine ⟨x, hsub x (List.mem_cons_self x xs), rfl, ?_⟩
          intro hx
          rw [hx] at hlt
          simp [OLT] at hlt
        · simp only [if_neg hlt]
          exact ha
    exact ih bps (fun y hy => hsub y (List.mem_cons_of_mem x hy)) _ hstep

theorem bestOver_spec (tprob : Trigram → ℚ) (pp : Column) (t2 t3 : Tag)
    (e : ℚ) (beam : Option ℚ) (bps : List (Nat × BP))
    (h : (bestOver tprob pp t2 t3 e beam bps).prob ≠ none) :
    ∃ p, p ∈ bps ∧ (bestOver tprob pp t2 t3 e beam bps).state = some p.1 ∧
      p.2.prob ≠ none := by
  revert h
  unfold bestOver
  exact foldBest_state_spec tprob pp t2 t3 e beam bps bps (fun x hx => hx)
    ⟨none, none⟩ (fun hne => absurd rfl hne)

theorem stepColumn_tag_mem (tprob : Trigram → ℚ) (pp prev : Column)
    (beam : Option ℚ) (tagProbs : List (Tag × ℚ)) :
    ∀ s ∈ stepColumn tprob pp prev beam tagProbs, s.tag ∈ tagProbs.map Prod.fst := by
  intro s hs
  unfold stepColumn at hs
  obtain ⟨tpb, htpb, hseq⟩ := List.mem_map.mp hs
  subst hseq
  exact List.mem_map_of_mem Prod.fst htpb

theorem stepColumn_StateOK (tprob : Trigram → ℚ) (beam : Option ℚ)
    (tagProbs : List (Tag × ℚ)) (c : Column) (rest : List Column)
    (hc1 : ∀ s ∈ c, StateOK rest s) :
    ∀ s ∈ stepColumn tprob (rest.getD 0 []) c beam tagProbs,
      StateOK (c :: rest) s := by
  intro s hs
  unfold stepColumn at hs
  obtain ⟨tpb, htpb, hseq⟩ := List.mem_map.mp hs
  subst hseq
  simp only [StateOK]
  refine ⟨?_, ?_⟩
  · rw [List.map_map]
    exact List.enum_map_fst c
  · intro jbp hjbp hprob
    obtain ⟨jt2, hjt2, hj⟩ := List.mem_map.mp hjbp
    subst hj
    obtain ⟨hjlt, hgetd⟩ := mem_enum_getD default c jt2 hjt2
    have hmem : jt2.2 ∈ c := by
      rw [← hgetd, List.getD_eq_getElem c default hjlt]
      exact List.getElem_mem hjlt
    obtain ⟨p, hp, hstate, hpprob⟩ := bestOver_spec _ _ _ _ _ _ _ hprob
    cases rest with
    | nil =>
      have hbps : jt2.2.bps = [] := hc1 jt2.2 hmem
      rw [hbps] at hp
      simp at hp
    | cons c2 rest2 =>
      refine ⟨p.1, p.2, hstate, ?_, hpprob⟩
      rw [hgetd]
      have hsok := hc1 jt2.2 hmem
      simp only [StateOK] at hsok
      have hnd : (jt2.2.bps.map Prod.fst).Nodup := by
        rw [hsok.1]
        exact List.nodup_range _
      exact alookup_of_mem_nodup hp hnd

theorem viterbiLoop_struct (tprob : Trigram → ℚ) (wh : List Char → List (Tag × ℚ))
    (logBeam : ℚ) :
    ∀ (toks : List (List Char)) (cols : List Column) (beam : Option ℚ)
      (r : List Column),
      viterbiLoop tprob wh logBeam toks cols beam = some r →
      ColsOK cols →
      ColsOK r ∧ r.length = toks.length + cols.length ∧
      r.drop toks.length = cols ∧
      (∀ i, i < toks.length →
        ∀ s ∈ r.getD (toks.length - 1 - i) [],
          s.tag ∈ (wh (toks.getD i [])).map Prod.fst) := by
  intro toks
  induction toks with
  | nil =>
    intro cols beam r hv hc
    have hcr : cols = r := by simpa [viterbiLoop] using hv
    subst hcr
    exact ⟨hc, by simp, rfl, fun i hi => absurd hi (by simp)⟩
  | cons tok rest ih =>
    intro cols beam r hv hc
    by_cases hemp : wh tok = []
    · simp [viterbiLoop, hemp] at hv
    · rw [show viterbiLoop tprob wh logBeam (tok :: rest) cols beam =
          viterbiLoop tprob wh logBeam rest
            (stepColumn tprob (cols.getD 1 []) (cols.getD 0 []) beam (wh tok) :: cols)
            ((columnBest (stepColumn tprob (cols.getD 1 [])
              (cols.getD 0 []) beam (wh tok))).map (fun b => b - logBeam)) from by
        simp only [viterbiLoop, if_neg hemp]] at hv
      have hcols' : ColsOK
          (stepColumn tprob (cols.getD 1 []) (cols.getD 0 []) beam (wh tok) :: cols) := by
        refine ⟨?_, hc⟩
        cases cols with
        | nil =>
          intro s hs
          unfold stepColumn at hs
          obtain ⟨tpb, _, hseq⟩ := List.mem_map.mp hs
          subst hseq
          exact rfl
        | cons c crest =>
          obtain ⟨hc1, hc2⟩ := hc
          exact stepColumn_StateOK tprob beam (wh tok) c crest hc1
      obtain ⟨h1, h2, h3, h4⟩ := ih _ _ r hv hcols'
      refine ⟨h1, ?_, ?_, ?_⟩
      · simp only [List.length_cons] at h2 ⊢
        omega
      · simp only [List.length_cons]
        rw [← List.drop_drop, h3]
        rfl
      · intro i hi
        cases i with
        | zero =>
          have hcolD : r.getD rest.length [] =
              stepColumn tprob (cols.getD 1 []) (cols.getD 0 []) beam (wh tok) := by
            rw [List.getD_eq_getElem?_getD,
              show rest.length = rest.length + 0 from rfl, ← List.getElem?_drop, h3]
            simp
          have hidx : (tok :: rest).length - 1 - 0 = rest.length := by
            simp only [List.length_cons]
            omega
          rw [hidx, hcolD]
          intro s hs
          exact stepColumn_tag_mem _ _ _ _ _ s hs
        | succ i' =>
          have hi'' : i' < rest.length := by
            simp only [List.length_cons] at hi
            omega
          have hidx : (tok :: rest).length - 1 - (i' + 1) = rest.length - 1 - i' := by
            simp only [List.length_cons]
            omega
          rw [hidx, show (tok :: rest).getD (i' + 1) [] = rest.getD i' [] from
            List.getD_cons_succ]
          exact h4 i' hi''

theorem bestLastInner_spec (last : Column) (st : VitState) (hst : st ∈ last) :
    ∀ (bl : List (Nat × BP)), (∀ x ∈ bl, x ∈ st.bps) →
      ∀ (a : Option (VitState × Nat) × Option ℚ),
      (∀ stj p, a = (some stj, p) → stj.1 ∈ last ∧
        (∃ bp, (stj.2, bp) ∈ stj.1.bps ∧ bp.prob = p) ∧ p ≠ none) →
      ∀ stj p,
        bl.foldl (fun acc q =>
          if OLT acc.2 q.2.prob then (some (st, q.1), q.2.prob) else acc) a = (some stj, p) →
        stj.1 ∈ last ∧ (∃ bp, (stj.2, bp) ∈ stj.1.bps ∧ bp.prob = p) ∧ p ≠ none := by
  intro bl
  induction bl with
  | nil => intro _ a ha stj p hf; exact ha stj p hf
  | cons q qs ih =>
    intro hsub a ha stj p hf
    simp only [List.foldl_cons] at hf
    refine ih (fun x hx => hsub x (List.mem_cons_of_mem q hx)) _ ?_ stj p hf
    intro stj' p' hacc
    by_cases hlt : OLT a.2 q.2.prob
    · rw [if_pos hlt] at hacc
      have ha1 : some (st, q.1) = some stj' := congrArg Prod.fst hacc
      have ha2 : q.2.prob = p' := congrArg Prod.snd hacc
      have ha1' : stj' = (st, q.1) := (Option.some.inj ha1).symm
      subst ha1'
      refine ⟨hst, ⟨q.2, ?_, ha2⟩, ?_⟩
      · exact hsub q (List.mem_cons_self q qs)
      · intro hnone
        have hq : q.2.prob = none := ha2.trans hnone
        rw [hq] at hlt
        simp [OLT] at hlt
    · rw [if_neg hlt] at hacc
      exact ha stj' p' hacc

theorem bestLast_spec (last : Column) (tj : VitState × Nat) (hpr : Option ℚ)
    (h : bestLast last = (some tj, hpr)) :
    tj.1 ∈ last ∧ (∃ bp, (tj.2, bp) ∈ tj.1.bps ∧ bp.prob = hpr) ∧ hpr ≠ none := by
  suffices hgen : ∀ (l : List VitState), (∀ s ∈ l, s ∈ last) →
      ∀ (a : Option (VitState × Nat) × Option ℚ),
      (∀ stj p, a = (some stj, p) → stj.1 ∈ last ∧
        (∃ bp, (stj.2, bp) ∈ stj.1.bps ∧ bp.prob = p) ∧ p ≠ none) →
      ∀ stj p,
        l.foldl (fun acc s => s.bps.foldl
          (fun acc q => if OLT acc.2 q.2.prob then (some (s, q.1), q.2.prob) else acc)
          acc) a = (some stj, p) →
        stj.1 ∈ last ∧ (∃ bp, (stj.2, bp) ∈ stj.1.bps ∧ bp.prob = p) ∧ p ≠ none by
    unfold bestLast at h
    exact hgen last (fun s hs => hs) (none, none)
      (fun stj p hacc => absurd hacc (by simp)) tj hpr h
  intro l
  induction l with
  | nil => intro _ a ha stj p hf; exact ha stj p hf
  | cons st sts ih =>
    intro hsub a ha stj p hf
    simp only [List.foldl_cons] at hf
    exact ih (fun s hs => hsub s (List.mem_cons_of_mem st hs)) _
      (bestLastInner_spec last st (hsub st (List.mem_cons_self st sts)) st.bps
        (fun x hx => hx) a ha) stj p hf

theorem traceback_spec :
    ∀ (cs : List Column) (tail : VitState) (j : Nat) (bp : BP),
      StateOK cs tail → ColsOK cs →
      alookup j tail.bps = some bp → bp.prob ≠ none →
      (traceback cs tail (some j)).length = cs.length + 1 ∧
      (traceback cs tail (some j)).getD 0 0 = tail.tag.tag ∧
      ∀ i, i < cs.length →
        ∃ s, s ∈ cs.getD i [] ∧ (traceback cs tail (some j)).getD (i + 1) 0 = s.tag.tag := by
  intro cs
  induction cs with
  | nil =>
    intro tail j bp _ _ _ _
    exact ⟨rfl, rfl, fun i hi => absurd hi (by simp)⟩
  | cons c rest ih =>
    intro tail j bp hsok hcok hal hprob
    have htb : traceback (c :: rest) tail (some j) =
        tail.tag.tag :: traceback rest (c.getD j default) bp.state := by
      simp only [traceback, hal]
    simp only [StateOK] at hsok
    obtain ⟨hkeys, hptr⟩ := hsok
    have hmem : (j, bp) ∈ tail.bps := alookup_some_mem hal
    have hjlt : j < c.length := by
      have hj : j ∈ tail.bps.map Prod.fst := List.mem_map_of_mem Prod.fst hmem
      rw [hkeys] at hj
      exact List.mem_range.mp hj
    obtain ⟨hc1, hc2⟩ := hcok
    have hnext_mem : c.getD j default ∈ c := by
      rw [List.getD_eq_getElem c default hjlt]
      exact List.getElem_mem hjlt
    have hnsok : StateOK rest (c.getD j default) := hc1 _ hnext_mem
    have hp := hptr (j, bp) hmem hprob
    cases rest with
    | nil =>
      have hpn : bp.state = none := hp
      rw [htb, hpn]
      refine ⟨rfl, rfl, ?_⟩
      intro i hi
      have hi0 : i = 0 := by
        simp only [List.length_cons, List.length_nil] at hi
        omega
      subst hi0
      exact ⟨c.getD j default, hnext_mem, rfl⟩
    | cons c2 rest2 =>
      have hp' : ∃ k bp', bp.state = some k ∧
          alookup k (c.getD j default).bps = some bp' ∧ bp'.prob ≠ none := hp
      obtain ⟨k, bp', hk, hal', hprob'⟩ := hp'
      obtain ⟨ihl, ihh, ihe⟩ := ih (c.getD j default) k bp' hnsok hc2 hal' hprob'
      rw [htb, hk]
      refine ⟨?_, rfl, ?_⟩
      · simp only [List.length_cons] at ihl ⊢
        omega
      · intro i hi
        cases i with
        | zero => exact ⟨c.getD j default, hnext_mem, ihh⟩
        | succ i' =>
          have hi' : i' < (c2 :: rest2).length := by
            simp only [List.length_cons] at hi ⊢
            omega
          exact ihe i' hi'

/-- C8 counterexample: the frequency collector stores the literal
start/end-marker tokens in the lexicon with their marker tags, so on the
one-token sentence consisting of the literal `"<START>"` token the word
handler proposes the start marker tag (code 3), decoding completes
without error, the decoded code sequence is `[3, 3, 3, 4]`, and the
`drop 2`/`dropLast` slicing of `Tags` returns `[3]` — a returned element
that is exactly the start marker tag's code, contradicting the claim's
unconditional marker-freedom. -/
theorem c8_marker_token_returns_marker :
    (HMMTaggerTag c8tp c8cwh 0 c8num [startTokenChars]).1 = some c8ccols ∧
    highestProbabilitySequence c8ccols = some (([3, 3, 3, 4] : List Nat), some 0) ∧
    ((([3, 3, 3, 4] : List Nat)).drop 2).dropLast = [3] ∧
    (⟨(c8num.Number startTokenChars).1, false⟩ : Tag).tag = 3 := by
  have h1 : c8cwh endTokenChars = [(tE, (0 : ℚ))] := rfl
  have h2 : c8cwh startTokenChars = [(tS, (0 : ℚ))] := rfl
  have h3 : alookup startTokenChars c8num.labelNumbers = some 3 := rfl
  refine ⟨?_, ?_, rfl, rfl⟩
  · norm_num [HMMTaggerTag, StringNumberer.Number, h3, viterbi, viterbiLoop, stepColumn,
      bestOver, columnBest, OLT, tagAt, h1, h2, alookup, c8tp, c8ccols, tE, tS,
      List.enum, List.enumFrom, List.cons_ne_nil, ne_eq]
  · norm_num [highestProbabilitySequence, bestLast, traceback, alookup, c8ccols, OLT,
      tE, tS, List.cons_ne_nil, ne_eq]

/-- C8 (amended): whenever the viterbi run of `Tag` builds a trellis and
the traceback of `Tags` finds a highest-scoring tail, the decoded code
sequence has exactly the sentence length plus three entries; `Tags` drops
the two leading start-marker entries and the trailing end-marker entry,
returning one label per input token, and the `i`-th remaining code is the
code of one of the candidate tags the word handler produced for the `i`-th
input token.  Marker tags are therefore absent from the returned sequence
only when no candidate tag of any input token carries a marker code — a
condition that fails for sentences containing the literal marker tokens,
which the trained lexicon stores with their marker tags (see the
counterexample). -/
theorem c8_tags_length_and_alignment (tprob : Trigram → ℚ)
    (wh : List Char → List (Tag × ℚ)) (logBeam : ℚ) (numberer : StringNumberer)
    (sentence : List (List Char)) (cols : List Column) (r : List Nat × Option ℚ)
    (hv : (HMMTaggerTag tprob wh logBeam numberer sentence).1 = some cols)
    (ht : highestProbabilitySequence cols = some r) :
    TrellisTags (HMMTaggerTag tprob wh logBeam numberer sentence).2 cols =
      some (((r.1.drop 2).dropLast).map
        (HMMTaggerTag tprob wh logBeam numberer sentence).2.Label, r.2) ∧
    r.1.length = sentence.length + 3 ∧
    ((r.1.drop 2).dropLast).length = sentence.length ∧
    (∀ i, i < sentence.length →
      ∃ p, p ∈ wh (sentence.getD i []) ∧
        ((r.1.drop 2).dropLast).getD i 0 = p.1.tag) ∧
    (∀ mark : Nat, (∀ tok ∈ sentence, ∀ p ∈ wh tok, p.1.tag ≠ mark) →
      ∀ x ∈ (r.1.drop 2).dropLast, x ≠ mark) := by
  have hv' : viterbiLoop tprob wh logBeam (sentence ++ [endTokenChars])
      [[⟨⟨(numberer.Number startTokenChars).1, false⟩, [(0, ⟨none, some 0⟩)]⟩],
       [⟨⟨(numberer.Number startTokenChars).1, false⟩, []⟩]] (some 0) = some cols := hv
  have hbase : ColsOK
      [[⟨⟨(numberer.Number startTokenChars).1, false⟩, [(0, ⟨none, some 0⟩)]⟩],
       [⟨⟨(numberer.Number startTokenChars).1, false⟩, []⟩]] := by
    refine ⟨?_, ?_, trivial⟩
    · intro s hs
      have hs' : s = ⟨⟨(numberer.Number startTokenChars).1, false⟩,
          [(0, ⟨none, some 0⟩)]⟩ := List.mem_singleton.mp hs
      subst hs'
      refine ⟨by simp [List.range_succ], ?_⟩
      intro jbp hjbp _
      have hj : jbp = (0, ⟨none, some 0⟩) := List.mem_singleton.mp hjbp
      subst hj
      rfl
    · intro s hs
      have hs' : s = ⟨⟨(numberer.Number startTokenChars).1, false⟩, []⟩ :=
        List.mem_singleton.mp hs
      subst hs'
      rfl
  obtain ⟨hok, hlen, hdrop, halign⟩ := viterbiLoop_struct tprob wh logBeam
    (sentence ++ [endTokenChars]) _ (some 0) cols hv' hbase
  have hclen : cols.length = sentence.length + 3 := by
    simp only [List.length_append, List.length_cons, List.length_nil] at hlen
    omega
  cases cols with
  | nil => exact absurd hclen (by simp only [List.length_nil]; omega)
  | cons last crest =>
  have htags0 : ∃ tj hpr, bestLast last = (some tj, hpr) ∧
      r = ((traceback crest tj.1 (some tj.2)).reverse, hpr) := by
    cases hb : bestLast last with
    | mk fst snd =>
      cases fst with
      | none =>
        rw [show highestProbabilitySequence (last :: crest) = none from by
          simp only [highestProbabilitySequence, hb]] at ht
        exact absurd ht (by simp)
      | some tj =>
        refine ⟨tj, snd, rfl, ?_⟩
        rw [show highestProbabilitySequence (last :: crest) =
            some ((traceback crest tj.1 (some tj.2)).reverse, snd) from by
          simp only [highestProbabilitySequence, hb]] at ht
        exact (Option.some.inj ht).symm
  obtain ⟨tj, hpr, hb, hr⟩ := htags0
  obtain ⟨htail_mem, ⟨bp, hbp_mem, hbp_prob⟩, hpr_ne⟩ := bestLast_spec last tj hpr hb
  obtain ⟨hok1, hok2⟩ := hok
  have hsok : StateOK crest tj.1 := hok1 tj.1 htail_mem
  have hcrlen : crest.length = sentence.length + 2 := by
    simp only [List.length_cons] at hclen
    omega
  have hal : alookup tj.2 tj.1.bps = some bp := by
    cases crest with
    | nil =>
      simp only [List.length_nil] at hcrlen
      omega
    | cons cr1 crrest =>
      simp only [StateOK] at hsok
      have hnd : (tj.1.bps.map Prod.fst).Nodup := by
        rw [hsok.1]
        exact List.nodup_range _
      exact alookup_of_mem_nodup hbp_mem hnd
  have hbprob_ne : bp.prob ≠ none := by
    rw [hbp_prob]
    exact hpr_ne
  obtain ⟨htl, hth, hte⟩ := traceback_spec crest tj.1 tj.2 bp hsok hok2 hal hbprob_ne
  have hr1 : r.1 = (traceback crest tj.1 (some tj.2)).reverse := by rw [hr]
  have hr1len : r.1.length = sentence.length + 3 := by
    rw [hr1, List.length_reverse, htl, hcrlen]
  have htags : TrellisTags (HMMTaggerTag tprob wh logBeam numberer sentence).2
      (last :: crest) =
      some (((r.1.drop 2).dropLast).map
        (HMMTaggerTag tprob wh logBeam numberer sentence).2.Label, r.2) := by
    unfold TrellisTags
    rw [ht]
    rfl
  have hreslen : ((r.1.drop 2).dropLast).length = sentence.length := by
    simp only [List.length_dropLast, List.length_drop, hr1len]
    omega
  have helem : ∀ i, i < sentence.length →
      ∃ p, p ∈ wh (sentence.getD i []) ∧
        ((r.1.drop 2).dropLast).getD i 0 = p.1.tag := by
    intro i hi
    have hlt2 : i < (r.1.drop 2).length - 1 := by
      simp only [List.length_drop, hr1len]
      omega
    have h1 : ((r.1.drop 2).dropLast).getD i 0 = r.1.getD (i + 2) 0 := by
      rw [List.getD_eq_getElem?_getD, List.getD_eq_getElem?_getD, List.dropLast_eq_take,
        List.getElem?_take_of_lt hlt2, List.getElem?_drop, Nat.add_comm 2 i]
    have hlen' : i + 2 < (traceback crest tj.1 (some tj.2)).length := by
      rw [htl, hcrlen]
      omega
    have h2 : r.1.getD (i + 2) 0 =
        (traceback crest tj.1 (some tj.2)).getD (sentence.length - i) 0 := by
      rw [List.getD_eq_getElem?_getD, List.getD_eq_getElem?_getD, hr1,
        List.getElem?_reverse hlen',
        show (traceback crest tj.1 (some tj.2)).length - 1 - (i + 2) =
          sentence.length - i from by rw [htl, hcrlen]; omega]
    have hi' : sentence.length - i - 1 < crest.length := by
      rw [hcrlen]
      omega
    obtain ⟨s, hsmem, hstag⟩ := hte (sentence.length - i - 1) hi'
    rw [show sentence.length - i - 1 + 1 = sentence.length - i from by omega] at hstag
    have htoklen : (sentence ++ [endTokenChars]).length = sentence.length + 1 := by
      simp [List.length_append]
    have halign_i := halign i (by rw [htoklen]; omega)
    rw [htoklen] at halign_i
    rw [show sentence.length + 1 - 1 - i = sentence.length - i from by omega] at halign_i
    rw [show sentence.length - i = (sentence.length - i - 1) + 1 from by omega] at halign_i
    have hsmem' := halign_i s hsmem
    have htok : (sentence ++ [endTokenChars]).getD i [] = sentence.getD i [] := by
      rw [List.getD_eq_getElem?_getD, List.getD_eq_getElem?_getD,
        List.getElem?_append_left hi]
    rw [htok] at hsmem'
    obtain ⟨p, hp, hptag⟩ := List.mem_map.mp hsmem'
    refine ⟨p, hp, ?_⟩
    rw [h1, h2, hstag, ← hptag]
  have hmark : ∀ mark : Nat, (∀ tok ∈ sentence, ∀ p ∈ wh tok, p.1.tag ≠ mark) →
      ∀ x ∈ (r.1.drop 2).dropLast, x ≠ mark := by
    intro mark hm x hx
    obtain ⟨i, hilt, hig⟩ := List.mem_iff_getElem.mp hx
    have hilt' : i < sentence.length := by
      rw [← hreslen]
      exact hilt
    obtain ⟨p, hp, hptag⟩ := helem i hilt'
    have hx' : x = p.1.tag := by
      rw [← hig, ← List.getD_eq_getElem ((r.1.drop 2).dropLast) 0 hilt]
      exact hptag
    have hsent_mem : sentence.getD i [] ∈ sentence := by
      rw [List.getD_eq_getElem sentence [] hilt']
      exact List.getElem_mem hilt'
    rw [hx']
    exact hm _ hsent_mem p hp
  exact ⟨htags, hr1len, hreslen, helem, hmark⟩

/-- Witness for C8: the all-zero one-candidate model on the one-token
sentence `["w"]`. -/
theorem c8_tags_length_and_alignment_witness :
    (HMMTaggerTag c8tp c8wh 0 c8num [['w']]).1 = some c8cols ∧
    highestProbabilitySequence c8cols = some (([3, 3, 0, 4] : List Nat), some 0) ∧
    ((([3, 3, 0, 4] : List Nat), (some 0 : Option ℚ)).1.drop 2).dropLast.length =
      ([['w']] : List (List Char)).length := by
  have h1 : c8wh endTokenChars = [(tE, (0 : ℚ))] := rfl
  have h2 : c8wh ['w'] = [(tA, (0 : ℚ))] := rfl
  have h3 : alookup startTokenChars c8num.labelNumbers = some 3 := rfl
  have hv : (HMMTaggerTag c8tp c8wh 0 c8num [['w']]).1 = some c8cols := by
    norm_num [HMMTaggerTag, StringNumberer.Number, h3, viterbi, viterbiLoop, stepColumn,
      bestOver, columnBest, OLT, tagAt, h1, h2, alookup, c8tp, c8cols, tA, tE, tS,
      List.enum, List.enumFrom, List.cons_ne_nil, ne_eq]
  have ht : highestProbabilitySequence c8cols =
      some (([3, 3, 0, 4] : List Nat), some 0) := by
    norm_num [highestProbabilitySequence, bestLast, traceback, alookup, c8cols, OLT,
      tA, tE, tS, List.cons_ne_nil, ne_eq]
  exact ⟨hv, ht, (c8_tags_length_and_alignment c8tp c8wh 0 c8num [['w']] c8cols
    (([3, 3, 0, 4] : List Nat), some 0) hv ht).2.2.1⟩

end Citar
